import Mathlib

/-!
Verification of the session-transcript diagnostic extractors
(`claude-session-extract-with-tools.py`, `pi-session-extract-with-tools.py`,
`codex-session-extract-with-tools.py`).

The scripts consume a stream of decoded JSON records (one object per input
line) and produce a list of formatted diagnostic lines.  We embed the decoded
JSON values, the Python helpers the scripts define (`_truncate`,
`_extract_text_from_content`, `_clean_xml_content`, `_format_tool_call`,
`_format_tool_result`, `_flatten_text`, `_extract_role_and_text`) and each
script's `process_session` loop.  Python operations that can raise at runtime
(`len` of a non-sized value, attribute access on the wrong type, joining
non-strings, hashing an unhashable key, ...) are embedded in `Except String`,
with the error string naming the Python exception class that would be raised.
-/

set_option maxRecDepth 4000

namespace SessionTools

/-- A decoded JSON value, as produced by `json.loads` for one transcript line.
Numbers are modelled as integers (the scripts never do arithmetic on record
fields, and no record field relevant to the processing logic is fractional).
Objects are association lists in insertion order with unique keys, matching
Python `dict` semantics. -/
inductive JVal where
  | null
  | bool (b : Bool)
  | num (n : Int)
  | str (s : String)
  | arr (items : List JVal)
  | obj (fields : List (String × JVal))

/-- A decoded JSON object (one record of the stream), as an association list. -/
abbrev JObj := List (String × JVal)

/-- `d.get(k)` on a decoded object: the first (unique) binding, if present. -/
def oget? (o : JObj) (k : String) : Option JVal :=
  match o with
  | [] => none
  | (k', v) :: rest => if k' = k then some v else oget? rest k

/-- `d.get(k, default)` on a decoded object. -/
def oget (o : JObj) (k : String) (d : JVal) : JVal :=
  (oget? o k).getD d

/-- Python truthiness of a decoded JSON value. -/
def truthy : JVal → Bool
  | .null => false
  | .bool b => b
  | .num n => n ≠ 0
  | .str s => s ≠ ""
  | .arr l => !l.isEmpty
  | .obj f => !f.isEmpty

/-- `a or b` on decoded values (first operand when truthy, else the second). -/
def pyOr (a b : JVal) : JVal := if truthy a then a else b

/-- Python `v == "s"` for a decoded value `v` and a string literal `s`:
only a string value can compare equal to a string. -/
def isStrEq (v : JVal) (s : String) : Bool :=
  match v with
  | .str t => t = s
  | _ => false

/-- A hashable decoded value, i.e. one Python accepts as a `dict` key.
Lists and dicts are unhashable; using one as a key raises `TypeError`. -/
inductive HKey where
  | null
  | bool (b : Bool)
  | num (n : Int)
  | str (s : String)
deriving DecidableEq

/-- The hashable view of a decoded value (`none` for lists and dicts, which
raise `TypeError` when used as `dict` keys).  Note: Python also identifies
`True` with `1` as keys; the records these scripts correlate use string
identifiers, where the structural equality used here coincides with Python's. -/
def toKey : JVal → Option HKey
  | .null => some .null
  | .bool b => some (.bool b)
  | .num n => some (.num n)
  | .str s => some (.str s)
  | .arr _ => none
  | .obj _ => none

/-! ### Character-level string primitives

Python string operations are embedded at the level of `List Char`
(`String.data`), which matches Python's code-point semantics for `len`,
slicing and iteration and keeps every operation amenable to induction. -/

/-- Python `len` of a string (code points). -/
def slen (s : String) : Nat := s.data.length

/-- Python `s[:n]` on a string. -/
def stake (s : String) (n : Nat) : String := ⟨s.data.take n⟩

/-- `text.split("\n")` at the character level; never returns `[]`. -/
def splitNlChars : List Char → List (List Char)
  | [] => [[]]
  | c :: cs =>
    match splitNlChars cs with
    | [] => [[]]
    | h :: t => if c = '\n' then [] :: h :: t else (c :: h) :: t

/-- Python `text.split("\n")`. -/
def splitNl (s : String) : List String :=
  (splitNlChars s.data).map (fun l => ⟨l⟩)

/-- Python `"\n".join(parts)` for string parts. -/
def joinNl : List String → String
  | [] => ""
  | [x] => x
  | x :: xs => x ++ "\n" ++ joinNl xs

/-- Python `" ".join(parts)` for string parts. -/
def joinSp : List String → String
  | [] => ""
  | [x] => x
  | x :: xs => x ++ " " ++ joinSp xs

/-- Python `", ".join(parts)` for string parts. -/
def joinComma : List String → String
  | [] => ""
  | [x] => x
  | x :: xs => x ++ ", " ++ joinComma xs

/-- Substring containment on character lists (Python `needle in hay`). -/
def containsSubChars (needle : List Char) : List Char → Bool
  | [] => needle.isEmpty
  | c :: rest => needle.isPrefixOf (c :: rest) || containsSubChars needle rest

/-- Python `needle in hay` for strings. -/
def containsSub (needle hay : String) : Bool :=
  containsSubChars needle.data hay.data

/-- Python `s.startswith(p)`. -/
def startsWithS (s p : String) : Bool := p.data.isPrefixOf s.data

/-- A character Python's default `str.strip()` removes (the ASCII whitespace
class; the transcripts only strip spaces, tabs, carriage returns and
newlines). -/
def isPySpace (c : Char) : Bool :=
  c = ' ' || c = '\t' || c = '\n' || c = '\r' || c = '\x0b' || c = '\x0c'

/-- Python `s.strip()` at the character level. -/
def stripChars (l : List Char) : List Char :=
  ((l.dropWhile isPySpace).reverse.dropWhile isPySpace).reverse

/-- Python `s.strip()`. -/
def pyStrip (s : String) : String := ⟨stripChars s.data⟩

/-- `s.replace("\n", "\\n")` at the character level. -/
def escNlChars : List Char → List Char
  | [] => []
  | c :: r => if c = '\n' then '\\' :: 'n' :: escNlChars r else c :: escNlChars r

/-- Python `s.replace("\n", "\\n")`. -/
def escNl (s : String) : String := ⟨escNlChars s.data⟩

/-- Python `s.lower()` (ASCII letters; the discriminator tags the scripts
lower-case are ASCII). -/
def lowerS (s : String) : String := ⟨s.data.map Char.toLower⟩

/-- One decimal digit. -/
def digitChar : Nat → Char
  | 0 => '0' | 1 => '1' | 2 => '2' | 3 => '3' | 4 => '4'
  | 5 => '5' | 6 => '6' | 7 => '7' | 8 => '8' | _ => '9'

/-- Decimal digits, with structural fuel (`n + 1` always suffices). -/
def natCharsGo : Nat → Nat → List Char
  | 0, _ => []
  | fuel + 1, n =>
    if n < 10 then [digitChar n]
    else natCharsGo fuel (n / 10) ++ [digitChar (n % 10)]

/-- Decimal digits of a natural number (Python `f"{n}"`). -/
def natChars (n : Nat) : List Char := natCharsGo (n + 1) n

/-- Python `f"{n}"` for a natural number. -/
def natStr (n : Nat) : String := ⟨natChars n⟩

/-- Python `str(n)` for a (possibly negative) integer. -/
def intStr (n : Int) : String :=
  if n < 0 then "-" ++ natStr n.natAbs else natStr n.natAbs

/-! ### Python value operations on decoded JSON values -/

mutual

/-- Python `repr` of a decoded value (quote/backslash escaping inside nested
strings is not reproduced; no claim depends on the repr of a composite). -/
def pyRepr : JVal → String
  | .null => "None"
  | .bool b => if b then "True" else "False"
  | .num n => intStr n
  | .str s => "\x27" ++ s ++ "\x27"
  | .arr l => "[" ++ joinComma (pyReprList l) ++ "]"
  | .obj f => "\x7b" ++ joinComma (pyReprObj f) ++ "\x7d"

def pyReprList : List JVal → List String
  | [] => []
  | x :: xs => pyRepr x :: pyReprList xs

def pyReprObj : List (String × JVal) → List String
  | [] => []
  | (k, v) :: xs => ("\x27" ++ k ++ "\x27: " ++ pyRepr v) :: pyReprObj xs

end

/-- Python `str(v)` of a decoded value: the string itself for a string, the
repr otherwise (which agrees with `str` for `None`, booleans and numbers). -/
def pyStr : JVal → String
  | .str s => s
  | v => pyRepr v

/-- JSON string escaping as `json.dumps` performs it (the escapes the
transcripts can contain; exotic control characters are left as-is). -/
def jsonEscChars : List Char → List Char
  | [] => []
  | c :: r =>
    if c = '"' then '\\' :: '"' :: jsonEscChars r
    else if c = '\\' then '\\' :: '\\' :: jsonEscChars r
    else if c = '\n' then '\\' :: 'n' :: jsonEscChars r
    else if c = '\t' then '\\' :: 't' :: jsonEscChars r
    else if c = '\r' then '\\' :: 'r' :: jsonEscChars r
    else c :: jsonEscChars r

mutual

/-- `json.dumps(v, ensure_ascii=False)` with the default separators. -/
def jsonDumps : JVal → String
  | .null => "null"
  | .bool b => if b then "true" else "false"
  | .num n => intStr n
  | .str s => "\"" ++ String.mk (jsonEscChars s.data) ++ "\""
  | .arr l => "[" ++ joinComma (jsonDumpsList l) ++ "]"
  | .obj f => "\x7b" ++ joinComma (jsonDumpsObj f) ++ "\x7d"

def jsonDumpsList : List JVal → List String
  | [] => []
  | x :: xs => jsonDumps x :: jsonDumpsList xs

def jsonDumpsObj : List (String × JVal) → List String
  | [] => []
  | (k, v) :: xs =>
    ("\"" ++ String.mk (jsonEscChars k.data) ++ "\": " ++ jsonDumps v) :: jsonDumpsObj xs

end

/-- Python `len(v)`: defined for strings, lists and dicts, a `TypeError`
otherwise. -/
def pyLen : JVal → Except String Nat
  | .str s => .ok (slen s)
  | .arr l => .ok l.length
  | .obj f => .ok f.length
  | _ => .error "TypeError"

/-- The argument of a call that demands a string (`re.search`, ...);
anything else raises `TypeError`. -/
def asStr : JVal → Except String String
  | .str s => .ok s
  | _ => .error "TypeError"

/-- All elements of a list must be strings (as `" ".join` / `"\n".join`
demand); a non-string element raises `TypeError`. -/
def asStrs : List JVal → Except String (List String)
  | [] => .ok []
  | .str s :: r => (asStrs r).map (s :: ·)
  | _ :: _ => .error "TypeError"

/-- Python `' '.join(parts)` over accumulated key parts. -/
def joinPartsSp (l : List JVal) : Except String String :=
  (asStrs l).map joinSp

/-- Python `'\n'.join(parts)` over accumulated text parts. -/
def joinPartsNl (l : List JVal) : Except String String :=
  (asStrs l).map joinNl

/-- Python `k in v` for a string `k`: substring test on a string, element
equality on a list, key membership on a dict, `TypeError` otherwise. -/
def pyIn (k : String) (v : JVal) : Except String Bool :=
  match v with
  | .str s => .ok (containsSub k s)
  | .arr l => .ok (l.any (fun e => isStrEq e k))
  | .obj f => .ok ((oget? f k).isSome)
  | _ => .error "TypeError"

/-- Python `v[k]` for a string key `k`: only a dict supports it (`KeyError`
if absent, which the scripts always guard with a membership test);
indexing a string or list with a string raises `TypeError`. -/
def pyIndex (v : JVal) (k : String) : Except String JVal :=
  match v with
  | .obj f =>
    match oget? f k with
    | some x => .ok x
    | none => .error "KeyError"
  | _ => .error "TypeError"

/-- Using a decoded value as a `dict` key: unhashable values raise
`TypeError`. -/
def keyOf (v : JVal) : Except String HKey :=
  match toKey v with
  | some k => .ok k
  | none => .error "TypeError"

/-! ### The pending-call table (a Python `dict` keyed by hashable values) -/

/-- Lookup in the pending-call table. -/
def pfind? {α : Type} (p : List (HKey × α)) (k : HKey) : Option α :=
  match p with
  | [] => none
  | (k', v) :: rest => if k' = k then some v else pfind? rest k

/-- `d[k] = v`: update the (unique) existing binding in place, else append. -/
def pset {α : Type} (p : List (HKey × α)) (k : HKey) (v : α) : List (HKey × α) :=
  match p with
  | [] => [(k, v)]
  | (k', v') :: rest => if k' = k then (k, v) :: rest else (k', v') :: pset rest k v

/-- Remove the (unique) binding of `k`, if present. -/
def premove {α : Type} (p : List (HKey × α)) (k : HKey) : List (HKey × α) :=
  match p with
  | [] => []
  | (k', v') :: rest => if k' = k then rest else (k', v') :: premove rest k

/-- `d.pop(k, default)`. -/
def ppop {α : Type} (p : List (HKey × α)) (k : HKey) (d : α) : α × List (HKey × α) :=
  match pfind? p k with
  | some v => (v, premove p k)
  | none => (d, p)

/-! ### `_flatten_text` (codex script, lines 78-95) -/

/-- `"\n".join(p for p in parts if p)`. -/
def joinNonEmpty (parts : List String) : String :=
  joinNl (parts.filter (fun p => p ≠ ""))

mutual

/-- codex `_flatten_text`: extract readable text from various shapes.
`None` yields `""`; a string is returned unchanged; ints (including
booleans, which Python treats as ints here) are `str`-ed; a list flattens
its members and joins the non-empty results with newlines; a dict returns
the flattening of the first of `text`/`content`/`message`/`body`/
`display_text` that is present, else flattens all its values. -/
def flattenText : JVal → String
  | .null => ""
  | .bool b => if b then "True" else "False"
  | .num n => intStr n
  | .str s => s
  | .arr l => joinNonEmpty (flattenListF l)
  | .obj f =>
    match flattenProbe ["text", "content", "message", "body", "display_text"] f with
    | some s => s
    | none => joinNonEmpty (flattenObjVals f)
termination_by v => (2 * sizeOf v, 0)

/-- The `for key in (...)` probe of `_flatten_text`'s dict case. -/
def flattenProbe (keys : List String) (f : List (String × JVal)) : Option String :=
  match keys with
  | [] => none
  | key :: ks =>
    match flattenAtKey key f with
    | some s => some s
    | none => flattenProbe ks f
termination_by (2 * sizeOf f + 1, keys.length + 1)

/-- `_flatten_text(v[key])` when `key in v`, else `none`. -/
def flattenAtKey (key : String) (f : List (String × JVal)) : Option String :=
  match f with
  | [] => none
  | (k, v) :: rest => if k = key then some (flattenText v) else flattenAtKey key rest
termination_by (2 * sizeOf f + 1, 0)

def flattenListF : List JVal → List String
  | [] => []
  | x :: xs => flattenText x :: flattenListF xs
termination_by l => (2 * sizeOf l, 0)

def flattenObjVals : List (String × JVal) → List String
  | [] => []
  | (_, v) :: xs => flattenText v :: flattenObjVals xs
termination_by l => (2 * sizeOf l, 0)

end

/-! ### `json.loads` on a string (used by the `arguments`-decode fallbacks)

A recursive-descent decoder for the JSON the transcripts embed in
string-typed argument fields.  Fractional and exponent numbers and `\u`
escapes are not modelled (decoding them fails, taking the scripts'
exception fallback); no claim involves such arguments. -/

/-- JSON insignificant whitespace. -/
def skipWs (l : List Char) : List Char :=
  l.dropWhile (fun c => c = ' ' || c = '\t' || c = '\n' || c = '\r')

/-- Decode a JSON string body after the opening quote (fuel-structural;
`length + 1` always suffices). -/
def parseStrCharsGo : Nat → List Char → Option (List Char × List Char)
  | 0, _ => none
  | _, [] => none
  | fuel + 1, c :: r =>
    if c = '"' then some ([], r)
    else if c = '\\' then
      match r with
      | [] => none
      | e :: r2 =>
        let dec : Option Char :=
          if e = '"' then some '"'
          else if e = '\\' then some '\\'
          else if e = '/' then some '/'
          else if e = 'n' then some '\n'
          else if e = 't' then some '\t'
          else if e = 'r' then some '\r'
          else none
        match dec with
        | some d => (parseStrCharsGo fuel r2).map (fun (cs, rr) => (d :: cs, rr))
        | none => none
    else (parseStrCharsGo fuel r).map (fun (cs, rr) => (c :: cs, rr))

def parseStrChars (l : List Char) : Option (List Char × List Char) :=
  parseStrCharsGo (l.length + 1) l

/-- Digits to a natural number. -/
def digitsToNat (l : List Char) : Nat :=
  l.foldl (fun acc c => acc * 10 + (c.toNat - 48)) 0

mutual

def parseVal : Nat → List Char → Option (JVal × List Char)
  | 0, _ => none
  | fuel + 1, l =>
    match skipWs l with
    | [] => none
    | c :: r =>
      if c = '"' then
        (parseStrChars r).map (fun (cs, rr) => (JVal.str ⟨cs⟩, rr))
      else if c = '[' then
        parseArrItems fuel (skipWs r) true
      else if c = '\x7b' then
        parseObjItems fuel (skipWs r) true
      else if ['t', 'r', 'u', 'e'].isPrefixOf (c :: r) then
        some (JVal.bool true, (c :: r).drop 4)
      else if ['f', 'a', 'l', 's', 'e'].isPrefixOf (c :: r) then
        some (JVal.bool false, (c :: r).drop 5)
      else if ['n', 'u', 'l', 'l'].isPrefixOf (c :: r) then
        some (JVal.null, (c :: r).drop 4)
      else
        let (neg, l2) := if c = '-' then (true, r) else (false, c :: r)
        let digits := l2.takeWhile (fun d => '0' ≤ d && d ≤ '9')
        let rest := l2.drop digits.length
        if digits = [] then none
        else
          match rest with
          | '.' :: _ => none
          | 'e' :: _ => none
          | 'E' :: _ => none
          | _ =>
            let n : Int := Int.ofNat (digitsToNat digits)
            some (JVal.num (if neg then -n else n), rest)

def parseArrItems (fuel : Nat) (l : List Char) (first : Bool) : Option (JVal × List Char) :=
  match fuel with
  | 0 => none
  | fuel + 1 =>
    match l with
    | ']' :: r => if first then some (JVal.arr [], r) else none
    | _ =>
      match parseVal fuel l with
      | none => none
      | some (v, r) =>
        match skipWs r with
        | ',' :: r2 =>
          match parseArrItems fuel (skipWs r2) false with
          | some (JVal.arr items, rr) => some (JVal.arr (v :: items), rr)
          | _ => none
        | ']' :: r2 => some (JVal.arr [v], r2)
        | _ => none

def parseObjItems (fuel : Nat) (l : List Char) (first : Bool) : Option (JVal × List Char) :=
  match fuel with
  | 0 => none
  | fuel + 1 =>
    match l with
    | '\x7d' :: r => if first then some (JVal.obj [], r) else none
    | '"' :: r =>
      match parseStrChars r with
      | none => none
      | some (kcs, r2) =>
        match skipWs r2 with
        | ':' :: r3 =>
          match parseVal fuel r3 with
          | none => none
          | some (v, r4) =>
            match skipWs r4 with
            | ',' :: r5 =>
              match parseObjItems fuel (skipWs r5) false with
              | some (JVal.obj fields, rr) => some (JVal.obj ((⟨kcs⟩, v) :: fields), rr)
              | _ => none
            | '\x7d' :: r5 => some (JVal.obj [(⟨kcs⟩, v)], r5)
            | _ => none
        | _ => none
    | _ => none

end

/-- `json.loads(s)` returning `none` where Python raises a decode error. -/
def jsonDecode (s : String) : Option JVal :=
  match parseVal (s.data.length + 2) s.data with
  | some (v, rest) => if skipWs rest = [] then some v else none
  | none => none

/-! ### `_truncate` (identical in all three scripts) -/

/-- `_truncate(text, max_lines, max_chars)`: keep the first `max_lines`
lines plus an omitted-lines marker, then cap at `max_chars` characters
plus an omitted-chars marker.  Defaults at the call sites are 8 and 500. -/
def truncate (text : String) (maxLines maxChars : Nat) : String :=
  if text = "" then ""
  else
    let lines := splitNl text
    let text1 :=
      if lines.length > maxLines then
        joinNl (lines.take maxLines) ++ "\n  ... (" ++ natStr (lines.length - maxLines) ++ " more lines)"
      else text
    if slen text1 > maxChars then
      stake text1 maxChars ++ "... (" ++ natStr (slen text1 - maxChars) ++ " more chars)"
    else text1

/-- The line-cut phase of `_truncate` (lines 61-63): the intermediate text
the character cut is then applied to. -/
def lineCut (text : String) (maxLines : Nat) : String :=
  let lines := splitNl text
  if lines.length > maxLines then
    joinNl (lines.take maxLines) ++ "\n  ... (" ++ natStr (lines.length - maxLines) ++ " more lines)"
  else text

/-! ### `_extract_text_from_content` (claude script) / `_extract_text`
(pi script) — the two functions are textually identical -/

/-- The contribution of one content fragment to the extracted text. -/
def extractItem (item : JVal) : Option String :=
  match item with
  | .obj f =>
    if isStrEq (oget f "type" .null) "text" then
      match oget f "text" (.str "") with
      | .str t => if pyStrip t ≠ "" then some (pyStrip t) else none
      | _ => none
    else none
  | _ => none

/-- Extract text from content: absent content yields `""`, a plain string is
stripped, a list keeps the stripped text of its `"text"`-tagged dict
fragments (non-empty after stripping), joined with newlines. -/
def extractText : JVal → String
  | .null => ""
  | .str s => pyStrip s
  | .arr items => joinNl (items.filterMap extractItem)
  | _ => ""

/-! ### The pseudo-XML patterns of `_clean_xml_content` (claude script)

The script's patterns have the shape `<tag>([^<]*)</tag>` (or `+`), plus the
generic `<[^>]+>`.  Because the captured class excludes the character that
must follow it, the regexes are deterministic: a match at a position is the
literal open tag, the maximal run of non-`<` characters, then the literal
close tag. -/

/-- Try `<open>([^<]*)</close>` (`ne` demands a non-empty capture, for the
`+` patterns) at the head of the input; on success return the capture and
the remainder after the match. -/
def tryTagAt (openT closeT : List Char) (ne : Bool) (l : List Char) :
    Option (List Char × List Char) :=
  if openT.isPrefixOf l then
    let after := l.drop openT.length
    let grp := after.takeWhile (fun c => c ≠ '<')
    let rest := after.drop grp.length
    if (!ne || !grp.isEmpty) && closeT.isPrefixOf rest then
      some (grp, rest.drop closeT.length)
    else none
  else none

def searchTagChars (openT closeT : List Char) (ne : Bool) : List Char → Option (List Char)
  | [] => none
  | c :: rest =>
    match tryTagAt openT closeT ne (c :: rest) with
    | some (grp, _) => some grp
    | none => searchTagChars openT closeT ne rest

/-- `re.search(r"<open>([^<]*)</close>", s)`, returning group 1. -/
def searchTag (openT closeT : String) (ne : Bool) (s : String) : Option String :=
  (searchTagChars openT.data closeT.data ne s.data).map (fun l => ⟨l⟩)

/-- `re.search(r"<command-name>([^<]+)</command-name>", s)`, group 1. -/
def searchCmdName (s : String) : Option String :=
  searchTag "<command-name>" "</command-name>" true s

def subTagAux (openT closeT : List Char) (ne : Bool) (repl : List Char → List Char) :
    Nat → List Char → List Char
  | 0, l => l
  | _, [] => []
  | fuel + 1, c :: rest =>
    match tryTagAt openT closeT ne (c :: rest) with
    | some (grp, rem) => repl grp ++ subTagAux openT closeT ne repl fuel rem
    | none => c :: subTagAux openT closeT ne repl fuel rest

/-- `re.sub(r"<open>([^<]*)</close>", repl, s)` (left-to-right,
non-overlapping; each step consumes at least one character, so fuel
`len + 1` always suffices). -/
def subTag (openT closeT : String) (ne : Bool) (repl : List Char → List Char) (s : String) :
    String :=
  ⟨subTagAux openT.data closeT.data ne repl (s.data.length + 1) s.data⟩

/-- Try `<[^>]+>` at the head of the input; on success return the remainder. -/
def tryAngleAt (l : List Char) : Option (List Char) :=
  match l with
  | '<' :: rest =>
    let inner := rest.takeWhile (fun c => c ≠ '>')
    match rest.drop inner.length with
    | '>' :: after => if inner.isEmpty then none else some after
    | _ => none
  | _ => none

def subAngleAux : Nat → List Char → List Char
  | 0, l => l
  | _, [] => []
  | fuel + 1, c :: rest =>
    match tryAngleAt (c :: rest) with
    | some after => subAngleAux fuel after
    | none => c :: subAngleAux fuel rest

/-- `re.sub(r"<[^>]+>", "", s)`. -/
def subAngle (s : String) : String := ⟨subAngleAux (s.data.length + 1) s.data⟩

/-- claude `_clean_xml_content` (lines 89-105): a `local-command-stdout`
wrapper returns its stripped inner content; otherwise `command-name`
wrappers become `[name]`, `command-message`/`command-args` wrappers are
deleted, remaining angle-bracket tags are deleted, and the result is
stripped. -/
def cleanXml (content : String) : String :=
  if content = "" then content
  else
    match searchTag "<local-command-stdout>" "</local-command-stdout>" false content with
    | some grp => pyStrip grp
    | none =>
      let s1 := subTag "<command-name>" "</command-name>" true
        (fun grp => '[' :: (grp ++ [']'])) content
      let s2 := subTag "<command-message>" "</command-message>" false (fun _ => []) s1
      let s3 := subTag "<command-args>" "</command-args>" false (fun _ => []) s2
      pyStrip (subAngle s3)

/-! ### `_format_tool_result` (textually identical in all three scripts) -/

/-- `_format_tool_result(name, is_error, content)`: status glyph, bare
name-and-status for empty or `"(no content)"` bodies, else the truncated
body with continuation lines indented two spaces. -/
def formatToolResult (name isError : JVal) (content : String) : String :=
  let status := if truthy isError then "✗" else "✓"
  if content = "" || content = "(no content)" then
    "TOOL [" ++ pyStr name ++ "]: " ++ status
  else
    let truncated := truncate content 8 500
    let lines := splitNl truncated
    if lines.length > 1 then
      "TOOL [" ++ pyStr name ++ "]: " ++ status ++ " " ++
        (lines.headD "" ++ "\n" ++ joinNl (lines.tail.map (fun l => "  " ++ l)))
    else
      "TOOL [" ++ pyStr name ++ "]: " ++ status ++ " " ++ truncated

/-! ### `_format_tool_call` (one per script) -/

/-- The `old/new` rendering shared by the claude and codex formatters:
`str(old)[:40]`/`str(new)[:40]`, an ellipsis when `len(raw) > 40` (a
`TypeError` when the raw value has no `len`), newlines escaped. -/
def renderEditStr (a b : JVal) : Except String String := do
  let old := stake (pyStr a) 40
  let nw := stake (pyStr b) 40
  let la ← pyLen a
  let old := if la > 40 then old ++ "..." else old
  let lb ← pyLen b
  let nw := if lb > 40 then nw ++ "..." else nw
  pure ("\"" ++ escNl old ++ "\" → \"" ++ escNl nw ++ "\"")

/-- Both keys of one edit-pair candidate present? -/
def editPairAt (t : JObj) (ok nk : String) : Option (JVal × JVal) :=
  match oget? t ok, oget? t nk with
  | some a, some b => some (a, b)
  | _, _ => none

/-- The `for old_key, new_key in [...]` loop of the claude and codex
formatters: first candidate pair with both keys present wins. -/
def editPairStrTriple (t : JObj) : Except String (List JVal) :=
  match editPairAt t "old_str" "new_str" with
  | some (a, b) => do let s ← renderEditStr a b; pure [JVal.str s]
  | none =>
    match editPairAt t "search" "replace" with
    | some (a, b) => do let s ← renderEditStr a b; pure [JVal.str s]
    | none =>
      match editPairAt t "oldText" "newText" with
      | some (a, b) => do let s ← renderEditStr a b; pure [JVal.str s]
      | none => pure []

/-- `str(cmd)` capped at 80 characters with `...` (claude and codex). -/
def capCmdStr (v : JVal) : String :=
  let cmd := pyStr v
  if slen cmd > 80 then stake cmd 77 ++ "..." else cmd

/-- The `json.dumps` fallback rendering, capped at 60 characters. -/
def dumpsCapped (v : JVal) : String :=
  let argStr := jsonDumps v
  if slen argStr > 60 then stake argStr 57 ++ "..." else argStr

/-- The key parts the claude formatter accumulates (lines 110-143):
`file_path` before `path`, then a capped backquoted `command`, one edit
pair, `pattern`, `regex`. -/
def keyPartsClaude (t : JObj) : Except String (List JVal) := do
  let fileParts : List JVal :=
    match oget? t "file_path" with
    | some v => [v]
    | none =>
      match oget? t "path" with
      | some v => [v]
      | none => []
  let cmdParts : List JVal :=
    match oget? t "command" with
    | some v => [.str ("`" ++ capCmdStr v ++ "`")]
    | none => []
  let editParts ← editPairStrTriple t
  let patParts : List JVal :=
    match oget? t "pattern" with
    | some v => [.str ("pattern=\"" ++ pyStr v ++ "\"")]
    | none => []
  let rexParts : List JVal :=
    match oget? t "regex" with
    | some v => [.str ("regex=\"" ++ pyStr v ++ "\"")]
    | none => []
  pure (fileParts ++ cmdParts ++ editParts ++ patParts ++ rexParts)

/-- claude `_format_tool_call(name, tool_input)` (the caller has already
replaced a non-dict `tool_input` by `{}`). -/
def formatToolCallClaude (name : JVal) (t : JObj) : Except String String := do
  let keyParts ← keyPartsClaude t
  if !keyParts.isEmpty then do
    let s ← joinPartsSp keyParts
    pure ("[" ++ pyStr name ++ "] " ++ s)
  else
    pure ("[" ++ pyStr name ++ "] " ++ dumpsCapped (.obj t))

/-- The key parts the codex formatter accumulates (lines 111-140):
`path` before `file_path`, then a capped backquoted `command`, one edit
pair, `pattern` (no `regex`). -/
def keyPartsCodex (t : JObj) : Except String (List JVal) := do
  let fileParts : List JVal :=
    match oget? t "path" with
    | some v => [v]
    | none =>
      match oget? t "file_path" with
      | some v => [v]
      | none => []
  let cmdParts : List JVal :=
    match oget? t "command" with
    | some v => [.str ("`" ++ capCmdStr v ++ "`")]
    | none => []
  let editParts ← editPairStrTriple t
  let patParts : List JVal :=
    match oget? t "pattern" with
    | some v => [.str ("pattern=\"" ++ pyStr v ++ "\"")]
    | none => []
  pure (fileParts ++ cmdParts ++ editParts ++ patParts)

/-- codex `_format_tool_call(name, args)`: a string argument is decoded via
`_safe_json_loads` and replaces `args` when the decoded value is truthy; a
non-dict renders as a capped opaque string. -/
def formatToolCallCodex (name args0 : JVal) : Except String String := do
  let args : JVal :=
    match args0 with
    | .str s =>
      match jsonDecode s with
      | some parsed => if truthy parsed then parsed else .str s
      | none => .str s
    | v => v
  match args with
  | .obj t => do
    let keyParts ← keyPartsCodex t
    if !keyParts.isEmpty then do
      let s ← joinPartsSp keyParts
      pure ("[" ++ pyStr name ++ "] " ++ s)
    else
      pure ("[" ++ pyStr name ++ "] " ++ dumpsCapped (.obj t))
  | v =>
    let argStr := pyStr v
    let argStr := if slen argStr > 60 then stake argStr 57 ++ "..." else argStr
    pure ("[" ++ pyStr name ++ "] " ++ argStr)

/-- `cmd[:77] + "..."` when `len(cmd) > 80` in the pi formatter, which does
not `str()` its operand first: `len` of a non-sized value raises, and
slicing-then-concatenating a non-string raises. -/
def capCmdPi (v : JVal) : Except String JVal := do
  let l ← pyLen v
  if l > 80 then
    match v with
    | .str s => pure (.str (stake s 77 ++ "..."))
    | _ => .error "TypeError"
  else pure v

/-- `x[:40] + "..." if len(x) > 40 else x` in the pi formatter (again
without `str()`). -/
def capEditPi (v : JVal) : Except String JVal := do
  let l ← pyLen v
  if l > 40 then
    match v with
    | .str s => pure (.str (stake s 40 ++ "..."))
    | _ => .error "TypeError"
  else pure v

/-- `x.replace("\n", "\\n")`: an `AttributeError` on a non-string. -/
def pyReplaceNl (v : JVal) : Except String String :=
  match v with
  | .str s => .ok (escNl s)
  | _ => .error "AttributeError"

/-- `x[:57] + "..." if len(x) > 60 else x` for the pi `content` argument. -/
def capContentPi (v : JVal) : Except String JVal := do
  let l ← pyLen v
  if l > 60 then
    match v with
    | .str s => pure (.str (stake s 57 ++ "..."))
    | _ => .error "TypeError"
  else pure v

/-- One rendered pi edit pair. -/
def renderEditPi (a b : JVal) : Except String String := do
  let a' ← capEditPi a
  let b' ← capEditPi b
  let olds ← pyReplaceNl a'
  let news ← pyReplaceNl b'
  pure ("\"" ++ olds ++ "\" → \"" ++ news ++ "\"")

/-- The pi formatter's primary-subject slot (lines 94-97): `path` first,
`file_path` only as the fallback. -/
def filePartsPi (args : JVal) : Except String (List JVal) := do
  if (← pyIn "path" args) then do
    let v ← pyIndex args "path"
    pure [v]
  else if (← pyIn "file_path" args) then do
    let v ← pyIndex args "file_path"
    pure [v]
  else pure ([] : List JVal)

/-- pi `_format_tool_call(name, args)` (lines 89-146): `path` before
`file_path`; `command` before `cmd`; `oldText/newText` before
`search/replace`; `pattern`; `query`; `content` for write-like tools; the
`json.dumps` fallback.  `args` may be any decoded value (the caller's
`json.loads` fallback can produce a non-dict), so each membership test and
index is the fallible Python operation. -/
def formatToolCallPi (name args : JVal) : Except String String := do
  let fileParts ← filePartsPi args
  let cmdParts ← do
    if (← pyIn "command" args) then do
      let v ← pyIndex args "command"
      let c ← capCmdPi v
      pure [JVal.str ("`" ++ pyStr c ++ "`")]
    else if (← pyIn "cmd" args) then do
      let v ← pyIndex args "cmd"
      let c ← capCmdPi v
      pure [JVal.str ("`" ++ pyStr c ++ "`")]
    else pure ([] : List JVal)
  let editParts ← do
    if (← pyIn "oldText" args) then
      if (← pyIn "newText" args) then do
        let a ← pyIndex args "oldText"
        let b ← pyIndex args "newText"
        let s ← renderEditPi a b
        pure [JVal.str s]
      else chkSearchReplace args
    else chkSearchReplace args
  let patParts ← do
    if (← pyIn "pattern" args) then do
      let v ← pyIndex args "pattern"
      pure [JVal.str ("pattern=\"" ++ pyStr v ++ "\"")]
    else pure ([] : List JVal)
  let qryParts ← do
    if (← pyIn "query" args) then do
      let v ← pyIndex args "query"
      pure [JVal.str ("\"" ++ pyStr v ++ "\"")]
    else pure ([] : List JVal)
  let contentParts ← do
    if (← pyIn "content" args) then do
      let lname ← (match name with
        | .str s => Except.ok (lowerS s)
        | _ => Except.error "AttributeError")
      if lname = "write" || lname = "file_actions" || lname = "create" then do
        let c ← pyIndex args "content"
        let c' ← capContentPi c
        let cs ← pyReplaceNl c'
        pure [JVal.str ("content=\"" ++ cs ++ "\"")]
      else pure ([] : List JVal)
    else pure ([] : List JVal)
  let keyParts := fileParts ++ cmdParts ++ editParts ++ patParts ++ qryParts ++ contentParts
  if !keyParts.isEmpty then do
    let s ← joinPartsSp keyParts
    pure ("[" ++ pyStr name ++ "] " ++ s)
  else
    pure ("[" ++ pyStr name ++ "] " ++ dumpsCapped args)
where
  /-- The `elif "search" in args and "replace" in args` branch. -/
  chkSearchReplace (args : JVal) : Except String (List JVal) := do
    if (← pyIn "search" args) then
      if (← pyIn "replace" args) then do
        let a ← pyIndex args "search"
        let b ← pyIndex args "replace"
        let s ← renderEditPi a b
        pure [JVal.str s]
      else pure ([] : List JVal)
    else pure ([] : List JVal)

/-! ### The claude `process_session` loop (lines 170-302)

The cross-record state is the pending-call table `tool_use_id -> name`
(the recorded name is the raw `name` field, an arbitrary decoded value).
Each step returns the diagnostic entries the record contributes together
with the updated table; the loop concatenates the contributions. -/

/-- The claude pending-call table. -/
abbrev PendC := List (HKey × JVal)

/-- The `role == "user"`, string-content branch (lines 202-218). -/
def userStrClaude (s : String) : List String :=
  if containsSub "<command-name>" s then
    match searchCmdName s with
    | some grp => ["USER: [cmd] " ++ grp]
    | none => []
  else if containsSub "<local-command-stdout>" s then
    let cleaned := cleanXml s
    if cleaned ≠ "" then ["TOOL [cmd]: ✓ " ++ truncate cleaned 8 500] else []
  else
    if s ≠ "" && !startsWithS s "Caveat:" &&
        !startsWithS s "This session is being continued" &&
        !startsWithS s "With your Claude Max subscription" &&
        !startsWithS s "[Request interrupted" then
      ["USER: " ++ s]
    else []

/-- The body string passed to `_format_tool_result` for a `tool_result`
fragment (lines 244-247): a list content is flattened by
`_extract_text_from_content`, anything else is `str()`-ed. -/
def toolResultBody (rc : JVal) : String :=
  match rc with
  | .arr l => extractText (.arr l)
  | v => pyStr v

/-- One fragment of the user-role content walk (lines 222-248): text
fragments may add to `text_parts` or emit a `TOOL [cmd]` line; a
`tool_result` fragment pops the pending table and emits a result line. -/
def userItemClaude (p : PendC) (item : JVal) :
    Except String (List JVal × List String × PendC) :=
  match item with
  | .obj f =>
    if isStrEq (oget f "type" .null) "text" then
      let text := oget f "text" (.str "")
      if truthy text then do
        if (← pyIn "<command-name>" text) then do
          let s ← asStr text
          match searchCmdName s with
          | some grp => pure ([.str ("[cmd] " ++ grp)], [], p)
          | none => pure ([], [], p)
        else if (← pyIn "<local-command-stdout>" text) then do
          let s ← asStr text
          let cleaned := cleanXml s
          if cleaned ≠ "" then pure ([], ["TOOL [cmd]: ✓ " ++ truncate cleaned 8 500], p)
          else pure ([], [], p)
        else pure ([text], [], p)
      else pure ([], [], p)
    else if isStrEq (oget f "type" .null) "tool_result" then do
      let tuid := oget f "tool_use_id" (.str "")
      let isErr := oget f "is_error" (.bool false)
      let rc := oget f "content" (.str "")
      let k ← keyOf tuid
      let (name, p') := ppop p k (JVal.str "tool")
      pure ([], [formatToolResult name isErr (toolResultBody rc)], p')
    else pure ([], [], p)
  | _ => pure ([], [], p)

/-- The user-role content-list walk. -/
def userWalkClaude (p : PendC) : List JVal → Except String (List JVal × List String × PendC)
  | [] => .ok ([], [], p)
  | item :: rest => do
    let (tps, out, p1) ← userItemClaude p item
    let (tps2, out2, p2) ← userWalkClaude p1 rest
    .ok (tps ++ tps2, out ++ out2, p2)

/-- After the walk (lines 250-255): the accumulated text parts, when
non-empty, are joined and emitted as one `USER:` entry unless the joined
text is a system injection. -/
def userTextClaude (tps : List JVal) : Except String (List String) :=
  if !tps.isEmpty then do
    let fullText ← joinPartsNl tps
    if !(startsWithS fullText "Caveat:" ||
        startsWithS fullText "This session is being continued") then
      pure ["USER: " ++ fullText]
    else pure []
  else pure []

/-- One fragment of the assistant-role content walk (lines 261-284): text
fragments accumulate; `tool_use` fragments record the pending call (when
the identifier is truthy) and render one indented call line. -/
def asstItemClaude (p : PendC) (item : JVal) :
    Except String (List String × List String × PendC) :=
  match item with
  | .obj f =>
    if isStrEq (oget f "type" .null) "text" then
      match oget f "text" (.str "") with
      | .str s => if s ≠ "" then .ok ([pyStrip s], [], p) else .ok ([], [], p)
      | _ => .ok ([], [], p)
    else if isStrEq (oget f "type" .null) "tool_use" then do
      let name := oget f "name" (.str "tool")
      let toolInput := oget f "input" (.obj [])
      let tuid := oget f "id" (.str "")
      let p' ←
        if truthy tuid then do
          let k ← keyOf tuid
          pure (pset p k name)
        else pure p
      let ti : JObj := match toolInput with | .obj t => t | _ => []
      let formatted ← formatToolCallClaude name ti
      .ok ([], ["  " ++ formatted], p')
    else .ok ([], [], p)
  | _ => .ok ([], [], p)

/-- The assistant-role content-list walk. -/
def asstWalkClaude (p : PendC) : List JVal → Except String (List String × List String × PendC)
  | [] => .ok ([], [], p)
  | item :: rest => do
    let (tps, tls, p1) ← asstItemClaude p item
    let (tps2, tls2, p2) ← asstWalkClaude p1 rest
    .ok (tps ++ tps2, tls ++ tls2, p2)

/-- The composite assistant entry (lines 289-300): `A:` plus the first text
line, non-blank continuation lines indented, then the indented call lines.
(The codex extractor builds its assistant entry with the same code.) -/
def emitAsstFiltered (tps tls : List String) : List String :=
  if !tps.isEmpty || !tls.isEmpty then
    [joinNl
      ((if !tps.isEmpty then
          let text := joinNl tps
          let tl := splitNl text
          ("A: " ++ tl.headD "") ::
            ((tl.tail.filter (fun l => pyStrip l ≠ "")).map (fun l => "   " ++ l))
        else []) ++
        (if !tls.isEmpty then (if tps.isEmpty then ["A:"] else []) ++ tls else []))]
  else []

/-- One record of the claude loop. -/
def stepClaude (p : PendC) (rec : JObj) : Except String (List String × PendC) :=
  let recType := oget rec "type" .null
  if truthy (oget rec "isMeta" .null) || isStrEq recType "file-history-snapshot" then
    .ok ([], p)
  else if truthy (oget rec "isCompactSummary" .null) then
    match oget rec "message" (.obj []) with
    | .obj m =>
      match oget m "content" (.str "") with
      | .str s =>
        if s ≠ "" then .ok (["[COMPACT SUMMARY]\n" ++ truncate s 12 800], p)
        else .ok ([], p)
      | _ => .ok ([], p)
    | _ => .error "AttributeError"
  else if !(isStrEq recType "user" || isStrEq recType "assistant") then
    .ok ([], p)
  else
    match oget rec "message" (.obj []) with
    | .obj m =>
      let content := oget m "content" (.arr [])
      if isStrEq (oget m "role" .null) "user" then
        match content with
        | .str s => .ok (userStrClaude s, p)
        | .arr items => do
          let (tps, out1, p') ← userWalkClaude p items
          let out2 ← userTextClaude tps
          .ok (out1 ++ out2, p')
        | _ => .ok ([], p)
      else if isStrEq (oget m "role" .null) "assistant" then
        match content with
        | .arr items => do
          let (tps, tls, p') ← asstWalkClaude p items
          .ok (emitAsstFiltered tps tls, p')
        | .str s => .ok (emitAsstFiltered [s] [], p)
        | _ => .ok ([], p)
      else .ok ([], p)
    | _ => .ok ([], p)

/-- The claude loop over the record stream. -/
def runClaude (p : PendC) : List JObj → Except String (List String × PendC)
  | [] => .ok ([], p)
  | r :: rs => do
    let (out1, p1) ← stepClaude p r
    let (out2, p2) ← runClaude p1 rs
    .ok (out1 ++ out2, p2)

/-- claude `process_session`: the diagnostic entries for a record stream. -/
def processClaude (records : List JObj) : Except String (List String) :=
  (runClaude [] records).map Prod.fst

/-! ### The pi `process_session` loop (lines 166-251) -/

/-- The pi pending-call table: `id -> (name, formatted_call)`. -/
abbrev PendP := List (HKey × (JVal × String))

/-- One fragment of the pi assistant-role content walk (lines 194-219). -/
def asstItemPi (p : PendP) (item : JVal) :
    Except String (List String × List String × PendP) :=
  match item with
  | .obj f =>
    if isStrEq (oget f "type" .null) "text" then
      match oget f "text" (.str "") with
      | .str s => if pyStrip s ≠ "" then .ok ([pyStrip s], [], p) else .ok ([], [], p)
      | _ => .ok ([], [], p)
    else if isStrEq (oget f "type" .null) "toolCall" then do
      let toolName := oget f "name" (.str "tool")
      let toolId := oget f "id" (.str "")
      let args0 := oget f "arguments" (.obj [])
      let args : JVal :=
        match args0 with
        | .obj t => .obj t
        | .str s =>
          match jsonDecode s with
          | some v => v
          | none => .obj []
        | _ => .obj []
      let formatted ← formatToolCallPi toolName args
      let p' ←
        if truthy toolId then do
          let k ← keyOf toolId
          pure (pset p k (toolName, formatted))
        else pure p
      .ok ([], ["  " ++ formatted], p')
    else .ok ([], [], p)
  | _ => .ok ([], [], p)

/-- The pi assistant-role content-list walk. -/
def asstWalkPi (p : PendP) : List JVal → Except String (List String × List String × PendP)
  | [] => .ok ([], [], p)
  | item :: rest => do
    let (tps, tls, p1) ← asstItemPi p item
    let (tps2, tls2, p2) ← asstWalkPi p1 rest
    .ok (tps ++ tps2, tls ++ tls2, p2)

/-- The composite pi assistant entry (lines 222-236): like the claude one
but continuation lines are not filtered for blankness. -/
def emitAsstPi (tps tls : List String) : List String :=
  if !tps.isEmpty || !tls.isEmpty then
    [joinNl
      ((if !tps.isEmpty then
          let text := joinNl tps
          let tl := splitNl text
          ("A: " ++ tl.headD "") :: (tl.tail.map (fun l => "   " ++ l))
        else []) ++
        (if !tls.isEmpty then (if tps.isEmpty then ["A:"] else []) ++ tls else []))]
  else []

/-- One record of the pi loop. -/
def stepPi (p : PendP) (rec : JObj) : Except String (List String × PendP) :=
  if !isStrEq (oget rec "type" .null) "message" then .ok ([], p)
  else
    match oget rec "message" (.obj []) with
    | .obj m =>
      if isStrEq (oget m "role" .null) "user" then
        let text := extractText (oget m "content" .null)
        if text ≠ "" then .ok (["USER: " ++ text], p) else .ok ([], p)
      else if isStrEq (oget m "role" .null) "assistant" then
        match oget m "content" (.arr []) with
        | .arr items => do
          let (tps, tls, p') ← asstWalkPi p items
          .ok (emitAsstPi tps tls, p')
        | _ => .ok ([], p)
      else if isStrEq (oget m "role" .null) "toolResult" then do
        let toolName := pyOr (oget m "toolName" .null) (pyOr (oget m "tool_name" .null) (.str "tool"))
        let toolId := pyOr (oget m "toolCallId" .null) (pyOr (oget m "tool_call_id" .null) (.str ""))
        let isError := truthy (pyOr (oget m "isError" .null) (oget m "is_error" .null))
        let content := extractText (oget m "content" .null)
        let k ← keyOf toolId
        let (nameUsed, p') :=
          match pfind? p k with
          | some (n, _) => (n, premove p k)
          | none => (toolName, p)
        .ok ([formatToolResult nameUsed (.bool isError) content], p')
      else .ok ([], p)
    | _ => .ok ([], p)

/-- The pi loop over the record stream. -/
def runPi (p : PendP) : List JObj → Except String (List String × PendP)
  | [] => .ok ([], p)
  | r :: rs => do
    let (out1, p1) ← stepPi p r
    let (out2, p2) ← runPi p1 rs
    .ok (out1 ++ out2, p2)

/-- pi `process_session`. -/
def processPi (records : List JObj) : Except String (List String) :=
  (runPi [] records).map Prod.fst

/-! ### The codex `process_session` loop (lines 213-318)

The codex extractor keeps no cross-record state: each record's
contribution depends on it alone. -/

/-- `_flatten_text(c.get("message") or c.get("text") or c.get("content"))`
for one element of a `choices` list (`AttributeError` on a non-dict). -/
def chooseText (c : JVal) : Except String String :=
  match c with
  | .obj cf =>
    .ok (flattenText (pyOr (oget cf "message" .null)
      (pyOr (oget cf "text" .null) (oget cf "content" .null))))
  | _ => .error "AttributeError"

def chooseTexts : List JVal → Except String (List String)
  | [] => .ok []
  | c :: rest => do
    let t ← chooseText c
    let ts ← chooseTexts rest
    .ok (t :: ts)

/-- Truthiness of a possibly-unassigned role (`not role` in Python, where
`role` starts as `None`). -/
def roleTruthyOpt : Option JVal → Bool
  | some v => truthy v
  | none => false

/-- codex `_extract_role_and_text` (lines 167-210). -/
def extractRoleAndText (o : JObj) : Except String (String × String) := do
  let role0 : Option JVal :=
    match oget? o "role" with
    | some v => some v
    | none =>
      match oget? o "actor" with
      | some v => some v
      | none =>
        match oget? o "author" with
        | some v => some v
        | none => oget? o "from"
  let text1 : String :=
    match oget? o "content" with
    | some v => flattenText v
    | none =>
      match oget? o "text" with
      | some v => flattenText v
      | none =>
        match oget? o "message" with
        | some v => flattenText v
        | none =>
          match oget? o "body" with
          | some v => flattenText v
          | none => ""
  let text2 ←
    if text1 = "" then
      match oget? o "choices" with
      | some (.arr cs) => do
        let ts ← chooseTexts cs
        pure (joinNl (ts.filter (fun t => t ≠ "")))
      | _ => pure ""
    else pure text1
  let nested? : Option JObj :=
    match oget? o "message" with
    | some (.obj nf) => some nf
    | _ =>
      match oget? o "msg" with
      | some (.obj nf) => some nf
      | _ =>
        match oget? o "payload" with
        | some (.obj nf) => some nf
        | _ => none
  let (role1, text3) :=
    if text2 = "" then
      match nested? with
      | some nf =>
        ((if !roleTruthyOpt role0 && (oget? nf "role").isSome then oget? nf "role" else role0),
          flattenText (pyOr (oget nf "content" .null)
            (pyOr (oget nf "text" .null) (oget nf "body" .null))))
      | none => (role0, text2)
    else (role0, text2)
  let roleA : JVal := match role1 with | some v => v | none => .null
  let roleB : JVal :=
    match roleA with
    | .obj f => pyOr (oget f "role" .null) (oget f "name" .null)
    | v => v
  let roleC : JVal :=
    match roleB with
    | .null => pyOr (oget o "type" .null) (pyOr (oget o "record_type" .null) (.str "unknown"))
    | v => v
  let roleS0 := lowerS (pyStr roleC)
  let roleS :=
    if roleS0 = "human" || roleS0 = "user" || roleS0 = "end-user" then "user"
    else if roleS0 = "assistant" || roleS0 = "ai" || roleS0 = "bot" then "assistant"
    else roleS0
  pure (roleS, text3)

/-- The reasoning-record summary loop (lines 225-234): dict entries with a
truthy `text` emit a truncated `[reasoning]` line (`_truncate` of a truthy
non-string raises). -/
def reasoningItems : List JVal → Except String (List String)
  | [] => .ok []
  | s :: rest => do
    let out1 ←
      match s with
      | .obj f =>
        match oget f "text" (.str "") with
        | .str t =>
          if t ≠ "" then Except.ok ["A: [reasoning] " ++ truncate t 4 200]
          else Except.ok ([] : List String)
        | v =>
          if truthy v then Except.error "AttributeError"
          else Except.ok ([] : List String)
      | _ => Except.ok ([] : List String)
    let out2 ← reasoningItems rest
    .ok (out1 ++ out2)

/-- One fragment of the codex response-item assistant walk (lines 275-290). -/
def asstItemCodex (item : JVal) : Except String (List String × List String) :=
  match item with
  | .obj f =>
    let itype := oget f "type" (.str "")
    if isStrEq itype "text" || isStrEq itype "output_text" then
      match oget f "text" (.str "") with
      | .str s => if s ≠ "" then .ok ([pyStrip s], []) else .ok ([], [])
      | _ => .ok ([], [])
    else if isStrEq itype "tool_use" || isStrEq itype "function_call" then do
      let name := pyOr (oget f "name" .null) (pyOr (oget f "function" .null) (.str "tool"))
      let args := pyOr (oget f "input" .null) (pyOr (oget f "arguments" .null) (.obj []))
      let formatted ← formatToolCallCodex name args
      .ok ([], ["  " ++ formatted])
    else .ok ([], [])
  | _ => .ok ([], [])

def asstWalkCodex : List JVal → Except String (List String × List String)
  | [] => .ok ([], [])
  | item :: rest => do
    let (tps, tls) ← asstItemCodex item
    let (tps2, tls2) ← asstWalkCodex rest
    .ok (tps ++ tps2, tls ++ tls2)

/-- One record of the codex loop. -/
def stepCodex (rec : JObj) : Except String (List String) :=
  let typ := lowerS (pyStr (pyOr (oget rec "type" .null)
    (pyOr (oget rec "record_type" .null) (.str ""))))
  if typ = "session_meta" then .ok []
  else if typ = "reasoning" then do
    let summary := pyOr (oget rec "summary" .null) (.arr [])
    let items ←
      (match summary with
      | .obj f => Except.ok [JVal.obj f]
      | .arr l => Except.ok l
      | .str s => Except.ok (s.data.map (fun c => JVal.str ⟨[c]⟩))
      | _ => Except.error "TypeError")
    reasoningItems items
  else if typ = "function_call" || typ = "function-call" || typ = "functioncall" then do
    let name := pyOr (oget rec "name" .null)
      (pyOr (oget rec "function" .null) (pyOr (oget rec "func" .null) (.str "unknown")))
    let args := pyOr (oget rec "arguments" .null)
      (pyOr (oget rec "args" .null) (pyOr (oget rec "parameters" .null) (.obj [])))
    let formatted ← formatToolCallCodex name args
    .ok ["A:\n  " ++ formatted]
  else if typ = "function_call_output" || typ = "function-output" || typ = "functionoutput" then
    let name := pyOr (oget rec "name" .null) (pyOr (oget rec "function" .null) (.str "tool"))
    let content := flattenText (pyOr (oget rec "output" .null)
      (pyOr (oget rec "content" .null) (oget rec "result" .null)))
    let isError := truthy (pyOr (oget rec "error" .null)
      (pyOr (oget rec "is_error" .null) (oget rec "isError" .null)))
    .ok [formatToolResult name (.bool isError) content]
  else if typ = "response_item" then
    match oget rec "payload" (.obj []) with
    | .obj payload =>
      let msgType := oget payload "type" .null
      let role := oget payload "role" (.str "")
      let content := oget payload "content" (.arr [])
      if isStrEq role "user" || isStrEq msgType "user" then
        let text := flattenText content
        if text ≠ "" && !startsWithS text "<environment_context>" &&
            !startsWithS text "<user_instructions>" then
          if slen text > 500 && (containsSub "<" (stake text 50) && containsSub ">" (stake text 100)) then
            .ok []
          else .ok ["USER: " ++ text]
        else .ok []
      else if isStrEq role "assistant" || isStrEq msgType "assistant" then
        match content with
        | .arr items => do
          let (tps, tls) ← asstWalkCodex items
          .ok (emitAsstFiltered tps tls)
        | .str s => .ok (emitAsstFiltered [s] [])
        | _ => .ok []
      else .ok []
    | _ => .ok []
  else do
    let (role, text) ← extractRoleAndText rec
    if role = "user" && text ≠ "" then
      if !(startsWithS text "<" && containsSub ">" (stake text 100)) then
        .ok ["USER: " ++ text]
      else .ok []
    else if role = "assistant" && text ≠ "" then .ok ["A: " ++ text]
    else .ok []

/-- codex `process_session`. -/
def processCodex : List JObj → Except String (List String)
  | [] => .ok []
  | r :: rs => do
    let out1 ← stepCodex r
    let out2 ← processCodex rs
    .ok (out1 ++ out2)

/-- A `tool_use` fragment whose identifier is the string `id` (the
fragments that can (re)bind `id` in the claude pending table). -/
def fragSetsClaude (id : String) (item : JVal) : Bool :=
  match item with
  | .obj f =>
    isStrEq (oget f "type" .null) "tool_use" && isStrEq (oget f "id" (.str "")) id
  | _ => false

/-- A `tool_result` fragment referencing the string `id` (the fragments
that can pop `id` from the claude pending table). -/
def fragPopsClaude (id : String) (item : JVal) : Bool :=
  match item with
  | .obj f =>
    isStrEq (oget f "type" .null) "tool_result" && isStrEq (oget f "tool_use_id" (.str "")) id
  | _ => false

/-- A claude record is unrelated to the identifier `id` when no fragment of
its message content is a `tool_use` or `tool_result` carrying `id`. -/
def recTouchesClaude (id : String) (rec : JObj) : Bool :=
  match oget rec "message" (.obj []) with
  | .obj m =>
    match oget m "content" (.arr []) with
    | .arr items => items.any (fun it => fragSetsClaude id it || fragPopsClaude id it)
    | _ => false
  | _ => false

/-- A `toolCall` fragment whose identifier is the string `id` (pi). -/
def fragSetsPi (id : String) (item : JVal) : Bool :=
  match item with
  | .obj f =>
    isStrEq (oget f "type" .null) "toolCall" && isStrEq (oget f "id" (.str "")) id
  | _ => false

/-- The correlation identifier a pi `toolResult` message resolves
(`msg.get("toolCallId") or msg.get("tool_call_id") or ""`). -/
def toolIdPi (m : JObj) : JVal :=
  pyOr (oget m "toolCallId" .null) (pyOr (oget m "tool_call_id" .null) (.str ""))

/-- A pi record is unrelated to the identifier `id` when no `toolCall`
fragment carries `id` and its resolved result identifier is not `id`. -/
def recTouchesPi (id : String) (rec : JObj) : Bool :=
  match oget rec "message" (.obj []) with
  | .obj m =>
    (match oget m "content" (.arr []) with
      | .arr items => items.any (fragSetsPi id)
      | _ => false) || isStrEq (toolIdPi m) id
  | _ => false

/-- A claude assistant record whose content list contains the fragment
`tf` (a canonical tool-call record shape). -/
def callRecC (cpre : List JVal) (tf : JObj) (cpost : List JVal) : JObj :=
  [("type", JVal.str "assistant"),
    ("message", JVal.obj [("role", JVal.str "assistant"),
      ("content", JVal.arr (cpre ++ JVal.obj tf :: cpost))])]

/-- A claude user record whose content list contains the fragment `rf`
(a canonical tool-result record shape). -/
def resRecC (rpre : List JVal) (rf : JObj) (rpost : List JVal) : JObj :=
  [("type", JVal.str "user"),
    ("message", JVal.obj [("role", JVal.str "user"),
      ("content", JVal.arr (rpre ++ JVal.obj rf :: rpost))])]

/-- A pi assistant message record whose content list contains `tf`. -/
def callRecP (cpre : List JVal) (tf : JObj) (cpost : List JVal) : JObj :=
  [("type", JVal.str "message"),
    ("message", JVal.obj [("role", JVal.str "assistant"),
      ("content", JVal.arr (cpre ++ JVal.obj tf :: cpost))])]

/-- A pi message record with message body `m` (a `toolResult` when `m`'s
role field says so). -/
def msgRecP (m : JObj) : JObj :=
  [("type", JVal.str "message"), ("message", JVal.obj m)]

/-! ## Supporting lemmas -/

@[simp] theorem bind_ok_eq {α β : Type} (a : α) (f : α → Except String β) :
    (Except.ok a : Except String α) >>= f = f a := rfl

@[simp] theorem bind_error_eq {α β : Type} (e : String) (f : α → Except String β) :
    (Except.error e : Except String α) >>= f = (Except.error e : Except String β) := rfl

@[simp] theorem pure_eq_ok {α : Type} (a : α) : (pure a : Except String α) = Except.ok a := rfl

theorem slen_append (a b : String) : slen (a ++ b) = slen a + slen b := by
  simp [slen, String.data_append]

theorem slen_mk (l : List Char) : slen ⟨l⟩ = l.length := rfl

theorem splitNlChars_ne_nil (cs : List Char) : splitNlChars cs ≠ [] := by
  cases cs with
  | nil => simp [splitNlChars]
  | cons c rest =>
    simp only [splitNlChars]
    rcases h : splitNlChars rest with _ | ⟨hd, tl⟩ <;> simp [h]
    split <;> simp

theorem splitNlChars_length (cs : List Char) :
    (splitNlChars cs).length = cs.count '\n' + 1 := by
  induction cs with
  | nil => simp [splitNlChars]
  | cons c rest ih =>
    simp only [splitNlChars]
    rcases h : splitNlChars rest with _ | ⟨hd, tl⟩
    · exact absurd h (splitNlChars_ne_nil rest)
    · by_cases hc : c = '\n' <;>
        simp_all [List.count_cons, hc]

theorem mem_splitNlChars_no_nl (cs : List Char) :
    ∀ l ∈ splitNlChars cs, '\n' ∉ l := by
  induction cs with
  | nil => simp [splitNlChars]
  | cons c rest ih =>
    simp only [splitNlChars]
    rcases h : splitNlChars rest with _ | ⟨hd, tl⟩
    · exact absurd h (splitNlChars_ne_nil rest)
    · intro l hl
      by_cases hc : c = '\n'
      · simp [hc] at hl
        rcases hl with hl | hl | hl
        · simp [hl]
        · exact ih l (by simp [h, hl])
        · exact ih l (by simp [h, hl])
      · simp [hc] at hl
        rcases hl with hl | hl
        · subst hl
          intro hm
          rcases List.mem_cons.mp hm with hm | hm
          · exact hc hm.symm
          · exact ih hd (by simp [h]) hm
        · exact ih l (by simp [h, hl])

theorem splitNlChars_no_nl (cs : List Char) (h : '\n' ∉ cs) :
    splitNlChars cs = [cs] := by
  induction cs with
  | nil => simp [splitNlChars]
  | cons c rest ih =>
    simp only [splitNlChars]
    have hc : c ≠ '\n' := fun hc => h (hc ▸ List.mem_cons_self c rest)
    have hr : '\n' ∉ rest := fun hm => h (List.mem_cons_of_mem c hm)
    rw [ih hr]
    simp [hc]

theorem splitNl_mk_no_nl (l : List Char) (h : '\n' ∉ l) : splitNl ⟨l⟩ = [⟨l⟩] := by
  simp [splitNl, splitNlChars_no_nl l h]

theorem splitNlChars_append_no_nl (a b : List Char) (h : '\n' ∉ a) :
    splitNlChars (a ++ b) =
      (a ++ (splitNlChars b).headD []) :: (splitNlChars b).tail := by
  induction a with
  | nil =>
    simp
    rcases hb : splitNlChars b with _ | ⟨hd, tl⟩
    · exact absurd hb (splitNlChars_ne_nil b)
    · simp
  | cons c rest ih =>
    have hc : c ≠ '\n' := fun hc => h (hc ▸ List.mem_cons_self c rest)
    have hr : '\n' ∉ rest := fun hm => h (List.mem_cons_of_mem c hm)
    simp only [List.cons_append, splitNlChars, List.append_eq]
    rw [ih hr]
    simp [hc]

theorem data_joinNl_count (ls : List String) (hne : ls ≠ [])
    (h : ∀ x ∈ ls, '\n' ∉ x.data) :
    (joinNl ls).data.count '\n' = ls.length - 1 := by
  induction ls with
  | nil => exact absurd rfl hne
  | cons x xs ih =>
    cases xs with
    | nil =>
      simp [joinNl, List.count_eq_zero]
      exact h x (by simp)
    | cons y ys =>
      have hx : '\n' ∉ x.data := h x (by simp)
      have hrec := ih (by simp) (fun z hz => h z (List.mem_cons_of_mem x hz))
      show ((x ++ "\n" ++ joinNl (y :: ys)).data.count '\n') = _
      rw [String.data_append, String.data_append]
      simp only [List.count_append, hrec]
      rw [List.count_eq_zero.mpr hx]
      simp [List.length_cons]
      omega

theorem no_nl_digitChar (n : Nat) : digitChar n ≠ '\n' := by
  unfold digitChar
  split <;> decide

theorem no_nl_natCharsGo (fuel n : Nat) : '\n' ∉ natCharsGo fuel n := by
  induction fuel generalizing n with
  | zero => simp [natCharsGo]
  | succ f ih =>
    simp only [natCharsGo]
    split
    · intro hm
      simp at hm
      exact no_nl_digitChar n hm.symm
    · intro hm
      rcases List.mem_append.mp hm with hm | hm
      · exact ih (n / 10) hm
      · simp at hm
        exact no_nl_digitChar (n % 10) hm.symm

theorem no_nl_natStr (n : Nat) : '\n' ∉ (natStr n).data := no_nl_natCharsGo (n + 1) n

theorem dropWhile_self (p : Char → Bool) (l : List Char) :
    List.dropWhile p (List.dropWhile p l) = List.dropWhile p l := by
  induction l with
  | nil => simp
  | cons a t ih => by_cases h : p a <;> simp [List.dropWhile_cons, h, ih]

theorem dropWhile_eq_self_of_head (p : Char → Bool) (l : List Char)
    (h : ∀ x, l.head? = some x → ¬ p x) : List.dropWhile p l = l := by
  cases l with
  | nil => simp
  | cons a t => simp [List.dropWhile_cons, h a rfl]

theorem head_dropWhile_not (p : Char → Bool) (l : List Char) :
    ∀ x, (List.dropWhile p l).head? = some x → ¬ p x := by
  induction l with
  | nil => simp
  | cons a t ih =>
    by_cases h : p a
    · simpa [List.dropWhile_cons, h] using ih
    · simp [List.dropWhile_cons, h]

theorem dtPref (m : List Char) : ((m.reverse.dropWhile isPySpace).reverse) <+: m := by
  rw [← List.reverse_suffix]
  simp only [List.reverse_reverse]
  exact List.dropWhile_suffix _

theorem prefix_head (l₁ l₂ : List Char) (h : l₁ <+: l₂) (x : Char)
    (hx : l₁.head? = some x) : l₂.head? = some x := by
  obtain ⟨t, rfl⟩ := h
  cases l₁ with
  | nil => simp at hx
  | cons a r => simpa using hx

theorem stripChars_idem (l : List Char) : stripChars (stripChars l) = stripChars l := by
  have hmhead : ∀ x, (l.dropWhile isPySpace).head? = some x → ¬ isPySpace x :=
    head_dropWhile_not isPySpace l
  have h4 : List.dropWhile isPySpace
      (((l.dropWhile isPySpace).reverse.dropWhile isPySpace).reverse) =
      ((l.dropWhile isPySpace).reverse.dropWhile isPySpace).reverse := by
    apply dropWhile_eq_self_of_head
    intro x hx
    exact hmhead x (prefix_head _ _ (dtPref (l.dropWhile isPySpace)) x hx)
  show (((stripChars l).dropWhile isPySpace).reverse.dropWhile isPySpace).reverse = _
  unfold stripChars
  rw [h4, List.reverse_reverse, dropWhile_self]

theorem pyStrip_idem (s : String) : pyStrip (pyStrip s) = pyStrip s := by
  simp [pyStrip, stripChars_idem]

theorem pfind?_pset_eq {α : Type} (p : List (HKey × α)) (k : HKey) (v : α) :
    pfind? (pset p k v) k = some v := by
  induction p with
  | nil => simp [pset, pfind?]
  | cons hd tl ih =>
    obtain ⟨k', v'⟩ := hd
    by_cases h : k' = k <;> simp [pset, pfind?, h, ih]

theorem pfind?_pset_ne {α : Type} (p : List (HKey × α)) (k k' : HKey) (v : α)
    (h : k' ≠ k) : pfind? (pset p k v) k' = pfind? p k' := by
  have hk : ¬ k = k' := fun he => h he.symm
  induction p with
  | nil => simp [pset, pfind?, hk]
  | cons hd tl ih =>
    obtain ⟨k₀, v₀⟩ := hd
    by_cases h0 : k₀ = k
    · subst h0
      simp [pset, pfind?, hk]
    · by_cases h1 : k₀ = k' <;> simp [pset, pfind?, h0, h1, ih, h]

theorem pfind?_premove_ne {α : Type} (p : List (HKey × α)) (k k' : HKey)
    (h : k' ≠ k) : pfind? (premove p k) k' = pfind? p k' := by
  have hk : ¬ k = k' := fun he => h he.symm
  induction p with
  | nil => simp [premove, pfind?]
  | cons hd tl ih =>
    obtain ⟨k₀, v₀⟩ := hd
    by_cases h0 : k₀ = k
    · subst h0
      simp [premove, pfind?, hk]
    · by_cases h1 : k₀ = k' <;> simp [premove, pfind?, h0, h1, ih, h]

theorem ppop_snd_pfind_ne {α : Type} (p : List (HKey × α)) (k k' : HKey) (d : α)
    (h : k' ≠ k) : pfind? (ppop p k d).2 k' = pfind? p k' := by
  unfold ppop
  cases hf : pfind? p k with
  | none => rfl
  | some v => simpa using pfind?_premove_ne p k k' h

/-! ## Claim theorems -/

/-- C2 (code-bug evidence): the spec promises the engine never raises, but
the claude extractor's compact-summary branch reads
`rec.get("message", {})` without a dict check and then calls `.get` on it;
a record `{"isCompactSummary": true, "message": "hi"}` raises
`AttributeError` (`'str' object has no attribute 'get'`). -/
theorem c2_schema_mismatch_crash :
    processClaude [[("isCompactSummary", JVal.bool true), ("message", JVal.str "hi")]] =
      .error "AttributeError" := rfl

/-- C7 (amended): a record with `isMeta: true` contributes zero output
entries in the claude extractor (and leaves the pending table untouched). -/
theorem c7_claude_meta_record_dropped (p : PendC) (rec : JObj)
    (h : oget rec "isMeta" JVal.null = JVal.bool true) :
    stepClaude p rec = .ok ([], p) := by
  simp [stepClaude, h, truthy]

theorem c7_witness : stepClaude [] [("isMeta", JVal.bool true)] = .ok ([], []) :=
  c7_claude_meta_record_dropped [] [("isMeta", JVal.bool true)] rfl

/-- C7 (counterexample): the pi extractor does not consult `isMeta`; a
`isMeta: true` message record still contributes a `USER:` entry. -/
theorem c7_counterexample :
    processPi [[("isMeta", JVal.bool true), ("type", JVal.str "message"),
      ("message", JVal.obj [("role", JVal.str "user"), ("content", JVal.str "hi")])]] =
      .ok ["USER: hi"] ∧ ("USER: hi" :: []) ≠ ([] : List String) :=
  ⟨rfl, by decide⟩

/-- C3 (counterexample): with both `file_path` and `path` present, the pi
and codex formatters render the `path` value, not the `file_path` value. -/
theorem c3_counterexample :
    formatToolCallPi (JVal.str "T")
      (JVal.obj [("file_path", JVal.str "/a"), ("path", JVal.str "/b")]) = .ok "[T] /b" ∧
    formatToolCallCodex (JVal.str "T")
      (JVal.obj [("file_path", JVal.str "/a"), ("path", JVal.str "/b")]) = .ok "[T] /b" ∧
    ("[T] /b" : String) ≠ "[T] /a" :=
  ⟨rfl, rfl, by decide⟩

/-- C3 (amended): when an argument mapping contains both an explicit
file-path field and a generic path field, the claude formatter's primary
subject (first key part) is the `file_path` value, while the pi and codex
formatters select the `path` value. -/
theorem c3_amended (t : JObj) (fp pv : JVal)
    (hfp : oget? t "file_path" = some fp) (hpv : oget? t "path" = some pv) :
    (∀ l, keyPartsClaude t = .ok l → l.head? = some fp) ∧
    filePartsPi (.obj t) = .ok [pv] ∧
    (∀ l, keyPartsCodex t = .ok l → l.head? = some pv) := by
  refine ⟨?_, ?_, ?_⟩
  · intro l hl
    unfold keyPartsClaude at hl
    rw [hfp] at hl
    cases he : editPairStrTriple t with
    | error e =>
      rw [he] at hl
      exact absurd hl (by simp [Bind.bind, Except.bind])
    | ok ep =>
      rw [he] at hl
      injection hl with h
      rw [← h]
      rfl
  · unfold filePartsPi
    rw [show pyIn "path" (JVal.obj t) = .ok true by simp [pyIn, hpv]]
    rw [show pyIndex (JVal.obj t) "path" = .ok pv by simp [pyIndex, hpv]]
    rfl
  · intro l hl
    unfold keyPartsCodex at hl
    rw [hpv] at hl
    cases he : editPairStrTriple t with
    | error e =>
      rw [he] at hl
      exact absurd hl (by simp [Bind.bind, Except.bind])
    | ok ep =>
      rw [he] at hl
      injection hl with h
      rw [← h]
      rfl

theorem c3_amended_witness :
    (∀ l, keyPartsClaude [("file_path", JVal.str "/a"), ("path", JVal.str "/b")] = .ok l →
      l.head? = some (JVal.str "/a")) ∧
    filePartsPi (.obj [("file_path", JVal.str "/a"), ("path", JVal.str "/b")]) =
      .ok [JVal.str "/b"] :=
  ⟨(c3_amended [("file_path", JVal.str "/a"), ("path", JVal.str "/b")]
      (JVal.str "/a") (JVal.str "/b") rfl rfl).1,
    (c3_amended [("file_path", JVal.str "/a"), ("path", JVal.str "/b")]
      (JVal.str "/a") (JVal.str "/b") rfl rfl).2.1⟩

/-- C4 (counterexample): the codex flattener returns a plain string
untrimmed, so "plain string → trimmed as-is" fails for the codex
extractor at `" x "`. -/
theorem c4_counterexample :
    flattenText (JVal.str " x ") = " x " ∧ pyStrip " x " = "x" ∧
    (" x " : String) ≠ "x" :=
  ⟨by simp [flattenText], by decide, by decide⟩

/-- C4 (amended): the claude/pi extractor returns a plain string stripped
and is idempotent on its own plain-string output; the codex flattener
returns a plain string unchanged (hence trivially idempotent). -/
theorem c4_amended (s : String) :
    extractText (JVal.str s) = pyStrip s ∧
    extractText (JVal.str (extractText (JVal.str s))) = extractText (JVal.str s) ∧
    flattenText (JVal.str s) = s ∧
    flattenText (JVal.str (flattenText (JVal.str s))) = flattenText (JVal.str s) := by
  refine ⟨rfl, ?_, by simp [flattenText], by simp [flattenText]⟩
  show pyStrip (pyStrip s) = pyStrip s
  exact pyStrip_idem s

/-! ### C5: the truncator bounds -/

theorem splitNl_length (s : String) :
    (splitNl s).length = s.data.count '\n' + 1 := by
  simp [splitNl, splitNlChars_length]

theorem mem_splitNl_no_nl (s : String) : ∀ x ∈ splitNl s, '\n' ∉ x.data := by
  intro x hx
  simp only [splitNl, List.mem_map] at hx
  obtain ⟨l, hl, rfl⟩ := hx
  exact mem_splitNlChars_no_nl s.data l hl

theorem splitNl_ne_nil (s : String) : splitNl s ≠ [] := by
  simp [splitNl]
  exact splitNlChars_ne_nil s.data

theorem count_nl_append (a b : String) :
    (a ++ b).data.count '\n' = a.data.count '\n' + b.data.count '\n' := by
  rw [String.data_append, List.count_append]

theorem count_nl_stake_le (s : String) (n : Nat) :
    (stake s n).data.count '\n' ≤ s.data.count '\n' :=
  (List.take_sublist n s.data).count_le '\n'

theorem slen_stake_le (s : String) (n : Nat) : slen (stake s n) ≤ n := by
  simp [slen, stake, List.length_take]

/-- The newline count of the truncator's output is at most `max_lines` when
`max_lines ≥ 1`. -/
theorem count_nl_truncate_le (t : String) (L C : Nat) (hL : 1 ≤ L) :
    (truncate t L C).data.count '\n' ≤ L := by
  have hlit1 : List.count '\n' ['\n', ' ', ' ', '.', '.', '.', ' ', '('] = 1 := by decide
  have hlit2 : List.count '\n' [' ', 'm', 'o', 'r', 'e', ' ', 'l', 'i', 'n', 'e', 's', ')'] = 0 := by
    decide
  have hlit3 : List.count '\n' ['.', '.', '.', ' ', '('] = 0 := by decide
  have hlit4 : List.count '\n' [' ', 'm', 'o', 'r', 'e', ' ', 'c', 'h', 'a', 'r', 's', ')'] = 0 := by
    decide
  unfold truncate
  by_cases ht : t = ""
  · simp [ht]
  · simp only [ht, ite_false]
    set lines := splitNl t with hlines
    have hcount : t.data.count '\n' + 1 = lines.length := (splitNl_length t).symm
    by_cases hcut : lines.length > L
    · have htake_len : (lines.take L).length = L := by
        simp only [List.length_take]
        omega
      have htake_ne : lines.take L ≠ [] := by
        intro h0
        rw [h0] at htake_len
        simp at htake_len
        omega
      have hmem : ∀ x ∈ lines.take L, '\n' ∉ x.data := fun x hx =>
        mem_splitNl_no_nl t x (List.mem_of_mem_take hx)
      have hjoin : (joinNl (lines.take L)).data.count '\n' = L - 1 := by
        rw [data_joinNl_count (lines.take L) htake_ne hmem, htake_len]
      have hnat1 : (natStr (lines.length - L)).data.count '\n' = 0 :=
        List.count_eq_zero.mpr (no_nl_natStr _)
      simp only [hcut, ite_true]
      split
      · have hstake := count_nl_stake_le (joinNl (lines.take L) ++ "\n  ... (" ++
          natStr (lines.length - L) ++ " more lines)") C
        simp only [count_nl_append] at hstake ⊢
        have hnat2 : (natStr (slen (joinNl (lines.take L) ++ "\n  ... (" ++
            natStr (lines.length - L) ++ " more lines)") - C)).data.count '\n' = 0 :=
          List.count_eq_zero.mpr (no_nl_natStr _)
        omega
      · simp only [count_nl_append]
        omega
    · have hbase : t.data.count '\n' ≤ L := by omega
      simp only [hcut, ite_false]
      split
      · have hstake := count_nl_stake_le t C
        have hnat2 : (natStr (slen t - C)).data.count '\n' = 0 :=
          List.count_eq_zero.mpr (no_nl_natStr _)
        simp only [count_nl_append]
        omega
      · exact hbase

/-- C5 (counterexample): with `max_lines = 0` the truncator's output has two
lines, violating the claimed `≤ L + 1` bound. -/
theorem c5_counterexample :
    truncate "x\ny" 0 500 = "\n  ... (2 more lines)" ∧
    (splitNl (truncate "x\ny" 0 500)).length = 2 ∧ ¬ (2 ≤ 0 + 1) :=
  ⟨rfl, rfl, by decide⟩

/-- On non-empty input the truncator is the character cut applied to the
line-cut intermediate. -/
theorem truncate_eq_lineCut (t : String) (L C : Nat) (ht : ¬ t = "") :
    truncate t L C =
      (if slen (lineCut t L) > C then
        stake (lineCut t L) C ++ "... (" ++ natStr (slen (lineCut t L) - C) ++ " more chars)"
      else lineCut t L) := by
  unfold truncate lineCut
  simp only [ht, ite_false]

/-- C5 (amended): for `max_lines ≥ 1` the output has at most `L + 1` lines;
for all limits the output length is bounded by `C` plus the length of the
omitted-chars marker the truncator appends (the marker counting the
characters cut from the line-cut intermediate); and input within both
limits is returned unchanged (in particular empty input yields empty
output). -/
theorem c5_amended (t : String) (L C : Nat) :
    (1 ≤ L → (splitNl (truncate t L C)).length ≤ L + 1) ∧
    (slen (truncate t L C) ≤
      C + slen ("... (" ++ natStr (slen (lineCut t L) - C) ++ " more chars)")) ∧
    ((splitNl t).length ≤ L → slen t ≤ C → truncate t L C = t) := by
  refine ⟨?_, ?_, ?_⟩
  · intro hL
    rw [splitNl_length]
    have := count_nl_truncate_le t L C hL
    omega
  · by_cases ht : t = ""
    · have h0 : truncate t L C = "" := by rw [ht]; rfl
      rw [h0]
      exact Nat.zero_le _
    · rw [truncate_eq_lineCut t L C ht]
      by_cases hc : slen (lineCut t L) > C
      · simp only [hc, ite_true]
        simp only [slen_append]
        have := slen_stake_le (lineCut t L) C
        omega
      · simp only [hc, ite_false]
        omega
  · intro h1 h2
    unfold truncate
    by_cases ht : t = ""
    · simp [ht]
    · have hnc : ¬ (splitNl t).length > L := by omega
      have hna : ¬ slen t > C := by omega
      simp [ht, hnc, hna]

theorem c5_amended_witness :
    ((splitNl (truncate "a\nb\nc" 2 500)).length ≤ 2 + 1) ∧
    (slen (truncate "abcdef" 8 3) ≤
      3 + slen ("... (" ++ natStr (slen (lineCut "abcdef" 8) - 3) ++ " more chars)")) ∧
    truncate "hi" 8 500 = "hi" :=
  ⟨(c5_amended "a\nb\nc" 2 500).1 (by decide),
    (c5_amended "abcdef" 8 3).2.1,
    (c5_amended "hi" 8 500).2.2 (by decide) (by decide)⟩

/-! ### C8: the tool-result formatter -/

theorem splitNl_append_no_nl (a b : String) (h : '\n' ∉ a.data) :
    splitNl (a ++ b) = (a ++ (splitNl b).headD "") :: (splitNl b).tail := by
  have hc := splitNlChars_append_no_nl a.data b.data h
  rcases hb : splitNlChars b.data with _ | ⟨hd, tl⟩
  · exact absurd hb (splitNlChars_ne_nil b.data)
  · rw [hb] at hc
    simp only [splitNl, String.data_append, hc]
    simp [splitNl, hb]
    rfl

theorem append_empty_str (a : String) : a ++ "" = a := by
  have : a ++ "" = String.mk (a.data ++ []) := rfl
  rw [this]
  simp

theorem splitNl_cons_nl (a b : String) (h : '\n' ∉ a.data) :
    splitNl (a ++ "\n" ++ b) = a :: splitNl b := by
  have h2 : a ++ "\n" ++ b = a ++ ("\n" ++ b) := by simp [String.append_assoc]
  rw [h2, splitNl_append_no_nl a ("\n" ++ b) h]
  have hdat : ("\n" ++ b).data = '\n' :: b.data := by
    rw [String.data_append]
    rfl
  have hsplit : splitNl ("\n" ++ b) = "" :: splitNl b := by
    simp only [splitNl, hdat, splitNlChars, List.append_eq, List.nil_append]
    rcases hb : splitNlChars b.data with _ | ⟨hd, tl⟩
    · exact absurd hb (splitNlChars_ne_nil b.data)
    · simp
  rw [hsplit]
  simp only [List.headD_cons, List.tail_cons]
  rw [append_empty_str]

theorem splitNl_no_nl (s : String) (h : '\n' ∉ s.data) : splitNl s = [s] := by
  simp only [splitNl, splitNlChars_no_nl s.data h, List.map_cons, List.map_nil]

theorem splitNl_joinNl (ls : List String) (hne : ls ≠ [])
    (h : ∀ x ∈ ls, '\n' ∉ x.data) : splitNl (joinNl ls) = ls := by
  induction ls with
  | nil => exact absurd rfl hne
  | cons x xs ih =>
    cases xs with
    | nil => exact splitNl_no_nl x (h x (by simp))
    | cons y ys =>
      show splitNl (x ++ "\n" ++ joinNl (y :: ys)) = _
      rw [splitNl_cons_nl x (joinNl (y :: ys)) (h x (by simp))]
      rw [ih (by simp) (fun z hz => h z (List.mem_cons_of_mem x hz))]

theorem headD_mem_splitNl (s : String) : (splitNl s).headD "" ∈ splitNl s := by
  rcases hs : splitNl s with _ | ⟨hd, tl⟩
  · exact absurd hs (splitNl_ne_nil s)
  · simp

/-- C8: the tool-result formatter's output shape.  An empty or
`"(no content)"` body yields exactly the name and status glyph.  Otherwise
(for a tool name without embedded newlines) the output's lines are: the
status line carrying the first line of the SS4.1-truncated body, then every
remaining truncated line prefixed with two spaces. -/
theorem c8_format_tool_result (name isError : JVal) (content : String) :
    (content = "" ∨ content = "(no content)" →
      formatToolResult name isError content =
        "TOOL [" ++ pyStr name ++ "]: " ++ (if truthy isError then "✗" else "✓")) ∧
    ('\n' ∉ (pyStr name).data → content ≠ "" → content ≠ "(no content)" →
      splitNl (formatToolResult name isError content) =
        ("TOOL [" ++ pyStr name ++ "]: " ++ (if truthy isError then "✗" else "✓") ++ " " ++
            (splitNl (truncate content 8 500)).headD "") ::
          (splitNl (truncate content 8 500)).tail.map (fun l => "  " ++ l)) := by
  have hglyph : '\n' ∉ ((if truthy isError then "✗" else "✓") : String).data := by
    by_cases he : truthy isError = true
    · rw [if_pos he]; decide
    · rw [if_neg he]; decide
  constructor
  · intro h
    unfold formatToolResult
    rcases h with h | h <;> simp [h]
  · intro hname h1 h2
    have hpre : '\n' ∉ ("TOOL [" ++ pyStr name ++ "]: " ++
        (if truthy isError then "✗" else "✓") ++ " ").data := by
      simp only [String.data_append, List.mem_append]
      intro hmem
      rcases hmem with ((((hm | hm) | hm) | hm) | hm)
      · revert hm; decide
      · exact hname hm
      · revert hm; decide
      · exact hglyph hm
      · revert hm; decide
    unfold formatToolResult
    rw [if_neg (by simp [h1, h2])]
    set tr := truncate content 8 500 with htr
    by_cases hlen : (splitNl tr).length > 1
    · rw [if_pos hlen]
      have hhead_nl : '\n' ∉ ((splitNl tr).headD "").data :=
        mem_splitNl_no_nl tr _ (headD_mem_splitNl tr)
      have htail_ne : (splitNl tr).tail.map (fun l => "  " ++ l) ≠ [] := by
        rcases hs : splitNl tr with _ | ⟨hd, tl⟩
        · exact absurd hs (splitNl_ne_nil tr)
        · rw [hs] at hlen
          simp only [List.length_cons] at hlen
          simp only [List.tail_cons]
          cases tl with
          | nil => simp at hlen
          | cons z zs => simp
      have htail_nonl : ∀ x ∈ (splitNl tr).tail.map (fun l => "  " ++ l),
          '\n' ∉ x.data := by
        intro x hx
        rcases List.mem_map.mp hx with ⟨l, hl, rfl⟩
        simp only [String.data_append, List.mem_append]
        intro hmem
        rcases hmem with hm | hm
        · revert hm; decide
        · exact mem_splitNl_no_nl tr l (List.mem_of_mem_tail hl) hm
      have hassoc : "TOOL [" ++ pyStr name ++ "]: " ++
          (if truthy isError then "✗" else "✓") ++ " " ++
          ((splitNl tr).headD "" ++ "\n" ++
            joinNl ((splitNl tr).tail.map (fun l => "  " ++ l))) =
          ("TOOL [" ++ pyStr name ++ "]: " ++
            (if truthy isError then "✗" else "✓") ++ " ") ++
          ((splitNl tr).headD "" ++ "\n" ++
            joinNl ((splitNl tr).tail.map (fun l => "  " ++ l))) := by
        simp [String.append_assoc]
      rw [hassoc, splitNl_append_no_nl _ _ hpre]
      rw [splitNl_cons_nl _ _ hhead_nl]
      rw [splitNl_joinNl _ htail_ne htail_nonl]
      simp [String.append_assoc]
    · rw [if_neg hlen]
      have hone : (splitNl tr).length = 1 := by
        have := splitNl_length tr
        omega
      have hnonl : '\n' ∉ tr.data := by
        have hc := splitNl_length tr
        exact List.count_eq_zero.mp (by omega)
      have hs : splitNl tr = [tr] := splitNl_no_nl tr hnonl
      have hassoc : "TOOL [" ++ pyStr name ++ "]: " ++
          (if truthy isError then "✗" else "✓") ++ " " ++ tr =
          ("TOOL [" ++ pyStr name ++ "]: " ++
            (if truthy isError then "✗" else "✓") ++ " ") ++ tr := by
        simp [String.append_assoc]
      rw [hassoc, splitNl_append_no_nl _ _ hpre, hs]
      simp [String.append_assoc]

theorem c8_witness :
    formatToolResult (JVal.str "Read") (JVal.bool false) "" =
      "TOOL [" ++ pyStr (JVal.str "Read") ++ "]: " ++
        (if truthy (JVal.bool false) then "✗" else "✓") ∧
    splitNl (formatToolResult (JVal.str "Read") (JVal.bool false) "l1\nl2") =
      ("TOOL [" ++ pyStr (JVal.str "Read") ++ "]: " ++
          (if truthy (JVal.bool false) then "✗" else "✓") ++ " " ++
          (splitNl (truncate "l1\nl2" 8 500)).headD "") ::
        (splitNl (truncate "l1\nl2" 8 500)).tail.map (fun l => "  " ++ l) :=
  ⟨(c8_format_tool_result (JVal.str "Read") (JVal.bool false) "").1 (Or.inl rfl),
    (c8_format_tool_result (JVal.str "Read") (JVal.bool false) "l1\nl2").2
      (by decide) (by decide) (by decide)⟩

/-! ### C10: codex user-message suppression -/

/-- C10: a codex `response_item` whose payload has role `user` and whose
flattened content either starts with `<environment_context>` or
`<user_instructions>`, or exceeds 500 characters with a `<` in its first
50 characters and a `>` in its first 100, contributes zero output entries. -/
theorem c10_codex_user_suppressed (rec payload : JObj)
    (htype : oget? rec "type" = some (JVal.str "response_item"))
    (hpayload : oget? rec "payload" = some (JVal.obj payload))
    (hrole : oget payload "role" (JVal.str "") = JVal.str "user")
    (hsupp :
      startsWithS (flattenText (oget payload "content" (JVal.arr [])))
        "<environment_context>" = true ∨
      startsWithS (flattenText (oget payload "content" (JVal.arr [])))
        "<user_instructions>" = true ∨
      (slen (flattenText (oget payload "content" (JVal.arr []))) > 500 ∧
        containsSub "<" (stake (flattenText (oget payload "content" (JVal.arr []))) 50) = true ∧
        containsSub ">" (stake (flattenText (oget payload "content" (JVal.arr []))) 100) = true)) :
    stepCodex rec = .ok [] := by
  have htyp : lowerS (pyStr (pyOr (oget rec "type" JVal.null)
      (pyOr (oget rec "record_type" JVal.null) (JVal.str "")))) = "response_item" := by
    rw [show oget rec "type" JVal.null = JVal.str "response_item" by simp [oget, htype]]
    rfl
  unfold stepCodex
  rw [htyp]
  rw [show oget rec "payload" (JVal.obj []) = JVal.obj payload by simp [oget, hpayload]]
  simp only [isStrEq, hrole]
  rw [if_neg (by decide), if_neg (by decide), if_neg (by decide), if_neg (by decide),
    if_pos trivial]
  rw [if_pos (show (decide True ||
    (match oget payload "type" JVal.null with
      | JVal.str t => decide (t = "user")
      | _ => false)) = true by simp)]
  set text := flattenText (oget payload "content" (JVal.arr [])) with htext
  rcases hsupp with hs | hs | hs
  · rw [if_neg (by simp [hs])]
  · rw [if_neg (by simp [hs])]
  · by_cases hg : (decide (text ≠ "") && !startsWithS text "<environment_context>" &&
        !startsWithS text "<user_instructions>") = true
    · rw [if_pos hg, if_pos (by simp [hs.1, hs.2.1, hs.2.2])]
    · rw [if_neg hg]

theorem c10_witness :
    stepCodex [("type", JVal.str "response_item"),
      ("payload", JVal.obj [("role", JVal.str "user"),
        ("content", JVal.str "<environment_context> env stuff")])] = .ok [] :=
  c10_codex_user_suppressed _ _ rfl rfl rfl
    (Or.inl (by simp [oget, oget?, flattenText]; decide))

/-! ### C6: correlation-miss fallback -/

/-- C6 (counterexample): a pi result record whose identifier was never
recorded but which carries its own `toolName` emits that name, not the
generic placeholder. -/
theorem c6_counterexample :
    processPi [[("type", JVal.str "message"),
      ("message", JVal.obj [("role", JVal.str "toolResult"),
        ("toolName", JVal.str "Foo"), ("toolCallId", JVal.str "zzz"),
        ("content", JVal.str "hi")])]] = .ok ["TOOL [Foo]: ✓ hi"] ∧
    ("TOOL [Foo]: ✓ hi" : String) ≠ "TOOL [tool]: ✓ hi" :=
  ⟨rfl, by decide⟩

/-- C6 (amended): a result record with an unrecorded identifier emits a
result line and processing continues without raising; the claude extractor
always uses the generic placeholder name, and the pi extractor falls back
to the placeholder when the record carries no (truthy) `toolName` or
`tool_name` of its own. -/
theorem c6_amended :
    (∀ (p : PendC) (id : String) (e c : JVal),
      pfind? p (.str id) = none →
      stepClaude p [("type", JVal.str "user"),
        ("message", JVal.obj [("role", JVal.str "user"),
          ("content", JVal.arr [JVal.obj [("type", JVal.str "tool_result"),
            ("tool_use_id", JVal.str id), ("is_error", e), ("content", c)]])])] =
        .ok ([formatToolResult (JVal.str "tool") e (toolResultBody c)], p)) ∧
    (∀ (q : PendP) (id : String) (e c : JVal),
      pfind? q (.str id) = none →
      stepPi q [("type", JVal.str "message"),
        ("message", JVal.obj [("role", JVal.str "toolResult"),
          ("toolCallId", JVal.str id), ("isError", e), ("content", c)])] =
        .ok ([formatToolResult (JVal.str "tool")
          (JVal.bool (truthy (pyOr e JVal.null))) (extractText c)], q)) := by
  constructor
  · intro p id e c hmiss
    simp [stepClaude, userWalkClaude, userItemClaude, userTextClaude, oget, oget?,
      isStrEq, truthy, keyOf, toKey, ppop, hmiss]
    try rfl
  · intro q id e c hmiss
    by_cases hid : id = ""
    · subst hid
      simp [stepPi, oget, oget?, isStrEq, truthy, keyOf, toKey, toolIdPi, pyOr, hmiss,
        bind, Except.bind]
      try rfl
    · simp [stepPi, oget, oget?, isStrEq, truthy, keyOf, toKey, toolIdPi, pyOr, hid, hmiss,
        bind, Except.bind]
      try rfl

theorem c6_witness :
    stepClaude [] [("type", JVal.str "user"),
      ("message", JVal.obj [("role", JVal.str "user"),
        ("content", JVal.arr [JVal.obj [("type", JVal.str "tool_result"),
          ("tool_use_id", JVal.str "zz"), ("is_error", JVal.bool false),
          ("content", JVal.str "out")]])])] =
      .ok ([formatToolResult (JVal.str "tool") (JVal.bool false)
        (toolResultBody (JVal.str "out"))], []) ∧
    stepPi [] [("type", JVal.str "message"),
      ("message", JVal.obj [("role", JVal.str "toolResult"),
        ("toolCallId", JVal.str "zz"), ("isError", JVal.bool false),
        ("content", JVal.str "out")])] =
      .ok ([formatToolResult (JVal.str "tool")
        (JVal.bool (truthy (pyOr (JVal.bool false) JVal.null)))
        (extractText (JVal.str "out"))], []) :=
  ⟨c6_amended.1 [] "zz" (JVal.bool false) (JVal.str "out") rfl,
    c6_amended.2 [] "zz" (JVal.bool false) (JVal.str "out") rfl⟩

/-! ### C9: tool results precede user text within one claude user record -/

theorem startsWithS_append_right (p b : String) : startsWithS (p ++ b) p = true := by
  unfold startsWithS
  rw [String.data_append, List.isPrefixOf_iff_prefix]
  exact List.prefix_append _ _

theorem startsWithS_append_left (a b p : String) (h : startsWithS a p = true) :
    startsWithS (a ++ b) p = true := by
  unfold startsWithS at h ⊢
  rw [List.isPrefixOf_iff_prefix] at h ⊢
  rw [String.data_append]
  exact h.trans (List.prefix_append _ _)

theorem formatToolResult_startsWith (name e : JVal) (content : String) :
    startsWithS (formatToolResult name e content) "TOOL [" = true := by
  unfold formatToolResult
  by_cases h1 : (content = "" || content = "(no content)") = true
  · rw [if_pos h1]
    apply startsWithS_append_left
    apply startsWithS_append_left
    exact startsWithS_append_right _ _
  · rw [if_neg h1]
    by_cases h2 : (splitNl (truncate content 8 500)).length > 1
    · rw [if_pos h2]
      apply startsWithS_append_left
      apply startsWithS_append_left
      apply startsWithS_append_left
      apply startsWithS_append_left
      exact startsWithS_append_right _ _
    · rw [if_neg h2]
      apply startsWithS_append_left
      apply startsWithS_append_left
      apply startsWithS_append_left
      apply startsWithS_append_left
      exact startsWithS_append_right _ _

/-- Every line the user-content walk emits for one fragment is a
`TOOL [`-prefixed result line (a `tool_result` line or a `[cmd]`-stdout
line); user text is never emitted during the walk. -/
theorem userItemClaude_lines (p : PendC) (item : JVal) (tps : List JVal)
    (out : List String) (p' : PendC)
    (h : userItemClaude p item = .ok (tps, out, p')) :
    ∀ l ∈ out, startsWithS l "TOOL [" = true := by
  cases item with
  | obj f =>
    simp only [userItemClaude] at h
    by_cases h1 : isStrEq (oget f "type" JVal.null) "text" = true
    · rw [if_pos h1] at h
      by_cases h2 : truthy (oget f "text" (JVal.str "")) = true
      · rw [if_pos h2] at h
        cases hc : pyIn "<command-name>" (oget f "text" (JVal.str "")) with
        | error e => simp [hc] at h
        | ok b =>
          rw [hc] at h
          simp only [bind_ok_eq] at h
          cases b
          · simp only [Bool.false_eq_true, if_false] at h
            cases hs : pyIn "<local-command-stdout>" (oget f "text" (JVal.str "")) with
            | error e => simp [hs] at h
            | ok b2 =>
              rw [hs] at h
              simp only [bind_ok_eq] at h
              cases b2
              · simp only [Bool.false_eq_true, if_false, pure_eq_ok] at h
                injection h with h
                simp only [Prod.mk.injEq] at h
                rw [← h.2.1]
                simp
              · simp only [if_true] at h
                cases ha : asStr (oget f "text" (JVal.str "")) with
                | error e => simp [ha] at h
                | ok s =>
                  rw [ha] at h
                  simp only [bind_ok_eq] at h
                  by_cases hcl : cleanXml s ≠ ""
                  · rw [if_pos hcl] at h
                    simp only [pure_eq_ok] at h
                    injection h with h
                    simp only [Prod.mk.injEq] at h
                    rw [← h.2.1]
                    intro l hl
                    rcases List.mem_singleton.mp hl with rfl
                    apply startsWithS_append_left
                    decide
                  · rw [if_neg hcl] at h
                    simp only [pure_eq_ok] at h
                    injection h with h
                    simp only [Prod.mk.injEq] at h
                    rw [← h.2.1]
                    simp
          · simp only [if_true] at h
            cases ha : asStr (oget f "text" (JVal.str "")) with
            | error e => simp [ha] at h
            | ok s =>
              rw [ha] at h
              simp only [bind_ok_eq] at h
              cases hg : searchCmdName s with
              | some grp =>
                rw [hg] at h
                simp only [pure_eq_ok] at h
                injection h with h
                simp only [Prod.mk.injEq] at h
                rw [← h.2.1]
                simp
              | none =>
                rw [hg] at h
                simp only [pure_eq_ok] at h
                injection h with h
                simp only [Prod.mk.injEq] at h
                rw [← h.2.1]
                simp
      · rw [if_neg h2] at h
        simp only [pure_eq_ok] at h
        injection h with h
        simp only [Prod.mk.injEq] at h
        rw [← h.2.1]
        simp
    · rw [if_neg h1] at h
      by_cases h3 : isStrEq (oget f "type" JVal.null) "tool_result" = true
      · rw [if_pos h3] at h
        cases hk : keyOf (oget f "tool_use_id" (JVal.str "")) with
        | error e => simp [hk] at h
        | ok k =>
          rw [hk] at h
          simp only [bind_ok_eq, pure_eq_ok] at h
          injection h with h
          simp only [Prod.mk.injEq] at h
          rw [← h.2.1]
          intro l hl
          rcases List.mem_singleton.mp hl with rfl
          exact formatToolResult_startsWith _ _ _
      · rw [if_neg h3] at h
        simp only [pure_eq_ok] at h
        injection h with h
        simp only [Prod.mk.injEq] at h
        rw [← h.2.1]
        simp
  | null =>
    simp only [userItemClaude, pure_eq_ok] at h
    injection h with h
    simp only [Prod.mk.injEq] at h
    rw [← h.2.1]
    simp
  | bool b =>
    simp only [userItemClaude, pure_eq_ok] at h
    injection h with h
    simp only [Prod.mk.injEq] at h
    rw [← h.2.1]
    simp
  | num n =>
    simp only [userItemClaude, pure_eq_ok] at h
    injection h with h
    simp only [Prod.mk.injEq] at h
    rw [← h.2.1]
    simp
  | str s =>
    simp only [userItemClaude, pure_eq_ok] at h
    injection h with h
    simp only [Prod.mk.injEq] at h
    rw [← h.2.1]
    simp
  | arr l =>
    simp only [userItemClaude, pure_eq_ok] at h
    injection h with h
    simp only [Prod.mk.injEq] at h
    rw [← h.2.1]
    simp

/-- Every line the user-content walk emits is `TOOL [`-prefixed. -/
theorem userWalkClaude_lines (items : List JVal) (p : PendC) (tps : List JVal)
    (out : List String) (p' : PendC)
    (h : userWalkClaude p items = .ok (tps, out, p')) :
    ∀ l ∈ out, startsWithS l "TOOL [" = true := by
  induction items generalizing p tps out p' with
  | nil =>
    unfold userWalkClaude at h
    injection h with h
    simp only [Prod.mk.injEq] at h
    rw [← h.2.1]
    simp
  | cons item rest ih =>
    unfold userWalkClaude at h
    cases h1 : userItemClaude p item with
    | error e => simp [h1] at h
    | ok v =>
      obtain ⟨t1, o1, p1⟩ := v
      rw [h1] at h
      simp only [bind_ok_eq] at h
      cases h2 : userWalkClaude p1 rest with
      | error e => simp [h2] at h
      | ok v2 =>
        obtain ⟨t2, o2, p2⟩ := v2
        rw [h2] at h
        simp only [bind_ok_eq] at h
        injection h with h
        simp only [Prod.mk.injEq] at h
        rw [← h.2.1]
        intro l hl
        rcases List.mem_append.mp hl with hl | hl
        · exact userItemClaude_lines p item t1 o1 p1 h1 l hl
        · exact ih p1 t2 o2 p2 h2 l hl

/-- The post-walk user-text emission is empty or a single `USER:` entry. -/
theorem userTextClaude_shape (tps : List JVal) (out : List String)
    (h : userTextClaude tps = .ok out) :
    out = [] ∨ ∃ t, out = ["USER: " ++ t] := by
  unfold userTextClaude at h
  by_cases h1 : (!tps.isEmpty) = true
  · rw [if_pos h1] at h
    cases h2 : joinPartsNl tps with
    | error e => simp [h2] at h
    | ok ft =>
      rw [h2] at h
      simp only [bind_ok_eq] at h
      by_cases h3 : (!(startsWithS ft "Caveat:" ||
          startsWithS ft "This session is being continued")) = true
      · rw [if_pos h3] at h
        simp only [pure_eq_ok] at h
        injection h with h
        exact Or.inr ⟨ft, h.symm⟩
      · rw [if_neg h3] at h
        simp only [pure_eq_ok] at h
        injection h with h
        exact Or.inl h.symm
  · rw [if_neg h1] at h
    simp only [pure_eq_ok] at h
    injection h with h
    exact Or.inl h.symm

/-- C9: for a claude user-role record with a content list, every `TOOL`
result entry the record contributes is emitted during the fragment walk
and the accumulated user text (if any) is emitted after it as a single
`USER:` entry, so each tool-result entry precedes the record's user-text
entry regardless of fragment order. -/
theorem c9_tool_results_precede_user_text (p : PendC) (rec : JObj) (m : JObj)
    (items : List JVal) (out : List String) (p' : PendC)
    (hmeta : truthy (oget rec "isMeta" JVal.null) = false)
    (htype : oget rec "type" JVal.null = JVal.str "user")
    (hcs : truthy (oget rec "isCompactSummary" JVal.null) = false)
    (hmsg : oget rec "message" (JVal.obj []) = JVal.obj m)
    (hrole : oget m "role" JVal.null = JVal.str "user")
    (hcontent : oget m "content" (JVal.arr []) = JVal.arr items)
    (h : stepClaude p rec = .ok (out, p')) :
    ∃ walk upart, out = walk ++ upart ∧
      (∀ l ∈ walk, startsWithS l "TOOL [" = true) ∧
      (upart = [] ∨ ∃ t, upart = ["USER: " ++ t]) := by
  unfold stepClaude at h
  rw [hmeta, htype, hcs, hmsg] at h
  simp only [isStrEq] at h
  simp at h
  rw [hrole, hcontent] at h
  simp at h
  cases h1 : userWalkClaude p items with
  | error e => simp [h1] at h
  | ok v =>
    obtain ⟨tps, out1, p1⟩ := v
    rw [h1] at h
    simp only [bind_ok_eq] at h
    cases h2 : userTextClaude tps with
    | error e => simp [h2] at h
    | ok out2 =>
      rw [h2] at h
      simp only [bind_ok_eq] at h
      injection h with h
      simp only [Prod.mk.injEq] at h
      refine ⟨out1, out2, h.1.symm, ?_, ?_⟩
      · exact userWalkClaude_lines items p tps out1 p1 h1
      · exact userTextClaude_shape tps out2 h2

theorem c9_witness :
    ∃ walk upart, (["TOOL [tool]: ✓ res", "USER: hi"] : List String) = walk ++ upart ∧
      (∀ l ∈ walk, startsWithS l "TOOL [" = true) ∧
      (upart = [] ∨ ∃ t, upart = ["USER: " ++ t]) :=
  c9_tool_results_precede_user_text [] [("type", JVal.str "user"),
      ("message", JVal.obj [("role", JVal.str "user"),
        ("content", JVal.arr [
          JVal.obj [("type", JVal.str "tool_result"), ("tool_use_id", JVal.str "q1"),
            ("is_error", JVal.bool false), ("content", JVal.str "res")],
          JVal.obj [("type", JVal.str "text"), ("text", JVal.str "hi")]])])]
    [("role", JVal.str "user"),
      ("content", JVal.arr [
        JVal.obj [("type", JVal.str "tool_result"), ("tool_use_id", JVal.str "q1"),
          ("is_error", JVal.bool false), ("content", JVal.str "res")],
        JVal.obj [("type", JVal.str "text"), ("text", JVal.str "hi")]])]
    [JVal.obj [("type", JVal.str "tool_result"), ("tool_use_id", JVal.str "q1"),
        ("is_error", JVal.bool false), ("content", JVal.str "res")],
      JVal.obj [("type", JVal.str "text"), ("text", JVal.str "hi")]]
    ["TOOL [tool]: ✓ res", "USER: hi"] [] rfl rfl rfl rfl rfl rfl rfl

/-! ### C1: correlation correctness

The pending-call table binds exactly the identifiers the records mention:
a record unrelated to `id` (no `tool_use`/`tool_result` fragment carrying
`id`) leaves the binding of `id` unchanged, the call record ends with
`id ↦ name`, and the result record pops precisely that binding. -/

theorem keyOf_ne_str (v : JVal) (id : String) (k : HKey)
    (hk : keyOf v = .ok k) (hne : isStrEq v id = false) : k ≠ HKey.str id := by
  cases v with
  | null => simp [keyOf, toKey] at hk; simp [← hk]
  | bool b => simp [keyOf, toKey] at hk; simp [← hk]
  | num n => simp [keyOf, toKey] at hk; simp [← hk]
  | str t =>
    simp [keyOf, toKey] at hk
    simp [isStrEq] at hne
    simp [← hk, hne]
  | arr l => simp [keyOf, toKey] at hk
  | obj f => simp [keyOf, toKey] at hk

/-- A user-content fragment that is not a `tool_result` for `id` leaves the
binding of `id` unchanged. -/
theorem userItemClaude_preserves (id : String) (p : PendC) (item : JVal)
    (tps : List JVal) (out : List String) (p' : PendC)
    (h : userItemClaude p item = .ok (tps, out, p'))
    (hun : fragPopsClaude id item = false) :
    pfind? p' (HKey.str id) = pfind? p (HKey.str id) := by
  cases item with
  | obj f =>
    simp only [userItemClaude] at h
    by_cases h1 : isStrEq (oget f "type" JVal.null) "text" = true
    · rw [if_pos h1] at h
      by_cases h2 : truthy (oget f "text" (JVal.str "")) = true
      · rw [if_pos h2] at h
        cases hc : pyIn "<command-name>" (oget f "text" (JVal.str "")) with
        | error e => simp [hc] at h
        | ok b =>
          rw [hc] at h
          simp only [bind_ok_eq] at h
          cases b
          · simp only [Bool.false_eq_true, if_false] at h
            cases hs : pyIn "<local-command-stdout>" (oget f "text" (JVal.str "")) with
            | error e => simp [hs] at h
            | ok b2 =>
              rw [hs] at h
              simp only [bind_ok_eq] at h
              cases b2
              · simp only [Bool.false_eq_true, if_false, pure_eq_ok] at h
                injection h with h
                simp only [Prod.mk.injEq] at h
                rw [← h.2.2]
              · simp only [if_true] at h
                cases ha : asStr (oget f "text" (JVal.str "")) with
                | error e => simp [ha] at h
                | ok s =>
                  rw [ha] at h
                  simp only [bind_ok_eq] at h
                  by_cases hcl : cleanXml s ≠ ""
                  · rw [if_pos hcl] at h
                    simp only [pure_eq_ok] at h
                    injection h with h
                    simp only [Prod.mk.injEq] at h
                    rw [← h.2.2]
                  · rw [if_neg hcl] at h
                    simp only [pure_eq_ok] at h
                    injection h with h
                    simp only [Prod.mk.injEq] at h
                    rw [← h.2.2]
          · simp only [if_true] at h
            cases ha : asStr (oget f "text" (JVal.str "")) with
            | error e => simp [ha] at h
            | ok s =>
              rw [ha] at h
              simp only [bind_ok_eq] at h
              cases hg : searchCmdName s with
              | some grp =>
                rw [hg] at h
                simp only [pure_eq_ok] at h
                injection h with h
                simp only [Prod.mk.injEq] at h
                rw [← h.2.2]
              | none =>
                rw [hg] at h
                simp only [pure_eq_ok] at h
                injection h with h
                simp only [Prod.mk.injEq] at h
                rw [← h.2.2]
      · rw [if_neg h2] at h
        simp only [pure_eq_ok] at h
        injection h with h
        simp only [Prod.mk.injEq] at h
        rw [← h.2.2]
    · rw [if_neg h1] at h
      by_cases h3 : isStrEq (oget f "type" JVal.null) "tool_result" = true
      · rw [if_pos h3] at h
        have hne : isStrEq (oget f "tool_use_id" (JVal.str "")) id = false := by
          simp only [fragPopsClaude, h3, Bool.true_and] at hun
          exact hun
        cases hk : keyOf (oget f "tool_use_id" (JVal.str "")) with
        | error e => simp [hk] at h
        | ok k =>
          rw [hk] at h
          simp only [bind_ok_eq, pure_eq_ok] at h
          injection h with h
          simp only [Prod.mk.injEq] at h
          rw [← h.2.2]
          exact ppop_snd_pfind_ne p k (HKey.str id) (JVal.str "tool")
            (Ne.symm (keyOf_ne_str _ id k hk hne))
      · rw [if_neg h3] at h
        simp only [pure_eq_ok] at h
        injection h with h
        simp only [Prod.mk.injEq] at h
        rw [← h.2.2]
  | null =>
    simp only [userItemClaude, pure_eq_ok] at h
    injection h with h
    simp only [Prod.mk.injEq] at h
    rw [← h.2.2]
  | bool b =>
    simp only [userItemClaude, pure_eq_ok] at h
    injection h with h
    simp only [Prod.mk.injEq] at h
    rw [← h.2.2]
  | num n =>
    simp only [userItemClaude, pure_eq_ok] at h
    injection h with h
    simp only [Prod.mk.injEq] at h
    rw [← h.2.2]
  | str s =>
    simp only [userItemClaude, pure_eq_ok] at h
    injection h with h
    simp only [Prod.mk.injEq] at h
    rw [← h.2.2]
  | arr l =>
    simp only [userItemClaude, pure_eq_ok] at h
    injection h with h
    simp only [Prod.mk.injEq] at h
    rw [← h.2.2]

/-- An assistant-content fragment that is not a `tool_use` for `id` leaves
the binding of `id` unchanged. -/
theorem asstItemClaude_preserves (id : String) (p : PendC) (item : JVal)
    (tps tls : List String) (p' : PendC)
    (h : asstItemClaude p item = .ok (tps, tls, p'))
    (hun : fragSetsClaude id item = false) :
    pfind? p' (HKey.str id) = pfind? p (HKey.str id) := by
  cases item with
  | obj f =>
    simp only [asstItemClaude] at h
    by_cases h1 : isStrEq (oget f "type" JVal.null) "text" = true
    · rw [if_pos h1] at h
      split at h <;>
        first
          | (split at h <;> (injection h with h; simp only [Prod.mk.injEq] at h; rw [← h.2.2]))
          | (injection h with h; simp only [Prod.mk.injEq] at h; rw [← h.2.2])
    · rw [if_neg h1] at h
      by_cases h3 : isStrEq (oget f "type" JVal.null) "tool_use" = true
      · rw [if_pos h3] at h
        have hne : isStrEq (oget f "id" (JVal.str "")) id = false := by
          simp only [fragSetsClaude, h3, Bool.true_and] at hun
          exact hun
        by_cases h4 : truthy (oget f "id" (JVal.str "")) = true
        · rw [if_pos h4] at h
          cases hk : keyOf (oget f "id" (JVal.str "")) with
          | error e => simp [hk] at h
          | ok k =>
            rw [hk] at h
            simp only [bind_ok_eq, pure_eq_ok] at h
            cases hf : formatToolCallClaude (oget f "name" (JVal.str "tool"))
                (match oget f "input" (JVal.obj []) with
                  | JVal.obj t => t
                  | _ => []) with
            | error e => simp [hf] at h
            | ok fmt =>
              rw [hf] at h
              simp only [bind_ok_eq] at h
              injection h with h
              simp only [Prod.mk.injEq] at h
              rw [← h.2.2]
              exact pfind?_pset_ne p k (HKey.str id) _
                (Ne.symm (keyOf_ne_str _ id k hk hne))
        · rw [if_neg h4] at h
          simp only [pure_eq_ok, bind_ok_eq] at h
          cases hf : formatToolCallClaude (oget f "name" (JVal.str "tool"))
              (match oget f "input" (JVal.obj []) with
                | JVal.obj t => t
                | _ => []) with
          | error e => simp [hf] at h
          | ok fmt =>
            rw [hf] at h
            simp only [bind_ok_eq] at h
            injection h with h
            simp only [Prod.mk.injEq] at h
            rw [← h.2.2]
      · rw [if_neg h3] at h
        injection h with h
        simp only [Prod.mk.injEq] at h
        rw [← h.2.2]
  | null =>
    simp only [asstItemClaude] at h
    injection h with h
    simp only [Prod.mk.injEq] at h
    rw [← h.2.2]
  | bool b =>
    simp only [asstItemClaude] at h
    injection h with h
    simp only [Prod.mk.injEq] at h
    rw [← h.2.2]
  | num n =>
    simp only [asstItemClaude] at h
    injection h with h
    simp only [Prod.mk.injEq] at h
    rw [← h.2.2]
  | str s =>
    simp only [asstItemClaude] at h
    injection h with h
    simp only [Prod.mk.injEq] at h
    rw [← h.2.2]
  | arr l =>
    simp only [asstItemClaude] at h
    injection h with h
    simp only [Prod.mk.injEq] at h
    rw [← h.2.2]

theorem userWalkClaude_preserves (id : String) (items : List JVal) (p : PendC)
    (tps : List JVal) (out : List String) (p' : PendC)
    (h : userWalkClaude p items = .ok (tps, out, p'))
    (hun : ∀ it ∈ items, fragPopsClaude id it = false) :
    pfind? p' (HKey.str id) = pfind? p (HKey.str id) := by
  induction items generalizing p tps out p' with
  | nil =>
    simp only [userWalkClaude] at h
    injection h with h
    simp only [Prod.mk.injEq] at h
    rw [← h.2.2]
  | cons item rest ih =>
    simp only [userWalkClaude] at h
    cases h1 : userItemClaude p item with
    | error e => simp [h1] at h
    | ok v =>
      obtain ⟨t1, o1, p1⟩ := v
      rw [h1] at h
      simp only [bind_ok_eq] at h
      cases h2 : userWalkClaude p1 rest with
      | error e => simp [h2] at h
      | ok v2 =>
        obtain ⟨t2, o2, p2⟩ := v2
        rw [h2] at h
        simp only [bind_ok_eq] at h
        injection h with h
        simp only [Prod.mk.injEq] at h
        rw [← h.2.2]
        rw [ih p1 t2 o2 p2 h2 (fun it hit => hun it (List.mem_cons_of_mem item hit))]
        exact userItemClaude_preserves id p item t1 o1 p1 h1 (hun item (by simp))

theorem asstWalkClaude_preserves (id : String) (items : List JVal) (p : PendC)
    (tps tls : List String) (p' : PendC)
    (h : asstWalkClaude p items = .ok (tps, tls, p'))
    (hun : ∀ it ∈ items, fragSetsClaude id it = false) :
    pfind? p' (HKey.str id) = pfind? p (HKey.str id) := by
  induction items generalizing p tps tls p' with
  | nil =>
    simp only [asstWalkClaude] at h
    injection h with h
    simp only [Prod.mk.injEq] at h
    rw [← h.2.2]
  | cons item rest ih =>
    simp only [asstWalkClaude] at h
    cases h1 : asstItemClaude p item with
    | error e => simp [h1] at h
    | ok v =>
      obtain ⟨t1, o1, p1⟩ := v
      rw [h1] at h
      simp only [bind_ok_eq] at h
      cases h2 : asstWalkClaude p1 rest with
      | error e => simp [h2] at h
      | ok v2 =>
        obtain ⟨t2, o2, p2⟩ := v2
        rw [h2] at h
        simp only [bind_ok_eq] at h
        injection h with h
        simp only [Prod.mk.injEq] at h
        rw [← h.2.2]
        rw [ih p1 t2 o2 p2 h2 (fun it hit => hun it (List.mem_cons_of_mem item hit))]
        exact asstItemClaude_preserves id p item t1 o1 p1 h1 (hun item (by simp))

/-- A record unrelated to `id` leaves `id`'s pending binding unchanged. -/
theorem stepClaude_preserves (id : String) (p : PendC) (rec : JObj)
    (ls : List String) (p' : PendC)
    (h : stepClaude p rec = .ok (ls, p'))
    (hun : recTouchesClaude id rec = false) :
    pfind? p' (HKey.str id) = pfind? p (HKey.str id) := by
  simp only [stepClaude] at h
  by_cases hb1 : (truthy (oget rec "isMeta" JVal.null) ||
      isStrEq (oget rec "type" JVal.null) "file-history-snapshot") = true
  · rw [if_pos hb1] at h
    injection h with h
    simp only [Prod.mk.injEq] at h
    rw [← h.2]
  · rw [if_neg hb1] at h
    by_cases hb2 : truthy (oget rec "isCompactSummary" JVal.null) = true
    · rw [if_pos hb2] at h
      split at h
      · split at h
        · split at h <;> (injection h with h; simp only [Prod.mk.injEq] at h; rw [← h.2])
        · injection h with h
          simp only [Prod.mk.injEq] at h
          rw [← h.2]
      · simp at h
    · rw [if_neg hb2] at h
      by_cases hb3 : (!(isStrEq (oget rec "type" JVal.null) "user" ||
          isStrEq (oget rec "type" JVal.null) "assistant")) = true
      · rw [if_pos hb3] at h
        injection h with h
        simp only [Prod.mk.injEq] at h
        rw [← h.2]
      · rw [if_neg hb3] at h
        split at h
        · -- message is a dict
          rename_i m heq
          simp only [recTouchesClaude, heq] at hun
          by_cases hr1 : isStrEq (oget m "role" JVal.null) "user" = true
          · rw [if_pos hr1] at h
            split at h
            · injection h with h
              simp only [Prod.mk.injEq] at h
              rw [← h.2]
            · rename_i items heq2
              simp only [heq2] at hun
              simp only [List.any_eq_false] at hun
              cases h1 : userWalkClaude p items with
              | error e => simp [h1] at h
              | ok v =>
                obtain ⟨tps, out1, p1⟩ := v
                rw [h1] at h
                simp only [bind_ok_eq] at h
                cases h2 : userTextClaude tps with
                | error e => simp [h2] at h
                | ok out2 =>
                  rw [h2] at h
                  simp only [bind_ok_eq] at h
                  injection h with h
                  simp only [Prod.mk.injEq] at h
                  rw [← h.2]
                  exact userWalkClaude_preserves id items p tps out1 p1 h1
                    (fun it hit => by
                      have := hun it hit
                      simp only [Bool.or_eq_true, not_or, Bool.not_eq_true] at this
                      exact this.2)
            · injection h with h
              simp only [Prod.mk.injEq] at h
              rw [← h.2]
          · rw [if_neg hr1] at h
            by_cases hr2 : isStrEq (oget m "role" JVal.null) "assistant" = true
            · rw [if_pos hr2] at h
              split at h
              · rename_i items heq2
                simp only [heq2] at hun
                simp only [List.any_eq_false] at hun
                cases h1 : asstWalkClaude p items with
                | error e => simp [h1] at h
                | ok v =>
                  obtain ⟨tps, tls, p1⟩ := v
                  rw [h1] at h
                  simp only [bind_ok_eq] at h
                  injection h with h
                  simp only [Prod.mk.injEq] at h
                  rw [← h.2]
                  exact asstWalkClaude_preserves id items p tps tls p1 h1
                    (fun it hit => by
                      have := hun it hit
                      simp only [Bool.or_eq_true, not_or, Bool.not_eq_true] at this
                      exact this.1)
              · injection h with h
                simp only [Prod.mk.injEq] at h
                rw [← h.2]
              · injection h with h
                simp only [Prod.mk.injEq] at h
                rw [← h.2]
            · rw [if_neg hr2] at h
              injection h with h
              simp only [Prod.mk.injEq] at h
              rw [← h.2]
        · -- message is not a dict
          injection h with h
          simp only [Prod.mk.injEq] at h
          rw [← h.2]

theorem runClaude_preserves (id : String) (mids : List JObj) (p : PendC)
    (out : List String) (p' : PendC)
    (h : runClaude p mids = .ok (out, p'))
    (hun : ∀ r ∈ mids, recTouchesClaude id r = false) :
    pfind? p' (HKey.str id) = pfind? p (HKey.str id) := by
  induction mids generalizing p out p' with
  | nil =>
    simp only [runClaude] at h
    injection h with h
    simp only [Prod.mk.injEq] at h
    rw [← h.2]
  | cons r rs ih =>
    simp only [runClaude] at h
    cases h1 : stepClaude p r with
    | error e => simp [h1] at h
    | ok v =>
      obtain ⟨o1, p1⟩ := v
      rw [h1] at h
      simp only [bind_ok_eq] at h
      cases h2 : runClaude p1 rs with
      | error e => simp [h2] at h
      | ok v2 =>
        obtain ⟨o2, p2⟩ := v2
        rw [h2] at h
        simp only [bind_ok_eq] at h
        injection h with h
        simp only [Prod.mk.injEq] at h
        rw [← h.2]
        rw [ih p1 o2 p2 h2 (fun r hr => hun r (List.mem_cons_of_mem _ hr))]
        exact stepClaude_preserves id p r o1 p1 h1 (hun r (by simp))

theorem runClaude_append (p : PendC) (xs ys : List JObj) :
    runClaude p (xs ++ ys) = (do
      let a ← runClaude p xs
      let b ← runClaude a.2 ys
      Except.ok (a.1 ++ b.1, b.2)) := by
  induction xs generalizing p with
  | nil =>
    cases h : runClaude p ys with
    | error e => simp [runClaude, h]
    | ok v => simp [runClaude, h]
  | cons r rs ih =>
    cases h1 : stepClaude p r with
    | error e => simp [runClaude, h1]
    | ok v =>
      simp only [List.cons_append, runClaude, h1, bind_ok_eq, List.append_eq]
      rw [ih v.2]
      cases h2 : runClaude v.2 rs with
      | error e => simp [h2]
      | ok v2 =>
        simp only [h2, bind_ok_eq]
        cases h3 : runClaude v2.2 ys with
        | error e => simp [h3]
        | ok v3 => simp [h3, List.append_assoc]

theorem asstWalkClaude_append (p : PendC) (xs ys : List JVal) :
    asstWalkClaude p (xs ++ ys) = (do
      let a ← asstWalkClaude p xs
      let b ← asstWalkClaude a.2.2 ys
      Except.ok (a.1 ++ b.1, a.2.1 ++ b.2.1, b.2.2)) := by
  induction xs generalizing p with
  | nil =>
    cases h : asstWalkClaude p ys with
    | error e => simp [asstWalkClaude, h]
    | ok v => simp [asstWalkClaude, h]
  | cons r rs ih =>
    cases h1 : asstItemClaude p r with
    | error e => simp [asstWalkClaude, h1]
    | ok v =>
      simp only [List.cons_append, asstWalkClaude, h1, bind_ok_eq, List.append_eq]
      rw [ih v.2.2]
      cases h2 : asstWalkClaude v.2.2 rs with
      | error e => simp [h2]
      | ok v2 =>
        simp only [h2, bind_ok_eq]
        cases h3 : asstWalkClaude v2.2.2 ys with
        | error e => simp [h3]
        | ok v3 => simp [h3, List.append_assoc]

theorem userWalkClaude_append (p : PendC) (xs ys : List JVal) :
    userWalkClaude p (xs ++ ys) = (do
      let a ← userWalkClaude p xs
      let b ← userWalkClaude a.2.2 ys
      Except.ok (a.1 ++ b.1, a.2.1 ++ b.2.1, b.2.2)) := by
  induction xs generalizing p with
  | nil =>
    cases h : userWalkClaude p ys with
    | error e => simp [userWalkClaude, h]
    | ok v => simp [userWalkClaude, h]
  | cons r rs ih =>
    cases h1 : userItemClaude p r with
    | error e => simp [userWalkClaude, h1]
    | ok v =>
      simp only [List.cons_append, userWalkClaude, h1, bind_ok_eq, List.append_eq]
      rw [ih v.2.2]
      cases h2 : userWalkClaude v.2.2 rs with
      | error e => simp [h2]
      | ok v2 =>
        simp only [h2, bind_ok_eq]
        cases h3 : userWalkClaude v2.2.2 ys with
        | error e => simp [h3]
        | ok v3 => simp [h3, List.append_assoc]

theorem isStrEq_ne (v : JVal) (a b : String) (h : isStrEq v a = true) (hne : b ≠ a) :
    isStrEq v b = false := by
  cases v with
  | str t =>
    simp only [isStrEq, decide_eq_true_eq] at h
    subst h
    simp only [isStrEq, decide_eq_false_iff_not]
    exact fun hb => hne hb.symm
  | null => simp [isStrEq]
  | bool b2 => simp [isStrEq]
  | num n => simp [isStrEq]
  | arr l => simp [isStrEq]
  | obj f => simp [isStrEq]

/-- Processing a `tool_use` fragment carrying a truthy string identifier
ends with `id` bound to the fragment's recorded name. -/
theorem asstItemClaude_sets (id : String) (nm : JVal) (p : PendC) (tf : JObj)
    (t o : List String) (p' : PendC)
    (h : asstItemClaude p (JVal.obj tf) = .ok (t, o, p'))
    (htype : isStrEq (oget tf "type" JVal.null) "tool_use" = true)
    (hid : oget tf "id" (JVal.str "") = JVal.str id)
    (hne : id ≠ "")
    (hnm : oget tf "name" (JVal.str "tool") = nm) :
    pfind? p' (HKey.str id) = some nm := by
  simp only [asstItemClaude] at h
  rw [if_neg (by rw [isStrEq_ne _ "tool_use" "text" htype (by decide)]; decide)] at h
  rw [if_pos htype] at h
  rw [hid, hnm] at h
  rw [if_pos (show truthy (JVal.str id) = true by simp [truthy, hne])] at h
  simp only [keyOf, toKey, bind_ok_eq, pure_eq_ok] at h
  cases hf : formatToolCallClaude nm
      (match oget tf "input" (JVal.obj []) with
        | JVal.obj t => t
        | _ => []) with
  | error e => simp [hf] at h
  | ok fmt =>
    rw [hf] at h
    simp only [bind_ok_eq] at h
    injection h with h
    simp only [Prod.mk.injEq] at h
    rw [← h.2.2]
    exact pfind?_pset_eq p (HKey.str id) nm

/-- After the assistant walk over a content list whose fragment `tf`
records `(id, nm)` and whose later fragments do not rebind `id`, the
pending table maps `id` to `nm`. -/
theorem asstWalkClaude_sets (id : String) (nm : JVal) (p : PendC)
    (cpre cpost : List JVal) (tf : JObj) (t o : List String) (p' : PendC)
    (h : asstWalkClaude p (cpre ++ JVal.obj tf :: cpost) = .ok (t, o, p'))
    (htype : isStrEq (oget tf "type" JVal.null) "tool_use" = true)
    (hid : oget tf "id" (JVal.str "") = JVal.str id)
    (hne : id ≠ "")
    (hnm : oget tf "name" (JVal.str "tool") = nm)
    (hpost : ∀ it ∈ cpost, fragSetsClaude id it = false) :
    pfind? p' (HKey.str id) = some nm := by
  rw [asstWalkClaude_append] at h
  cases h1 : asstWalkClaude p cpre with
  | error e => simp [h1] at h
  | ok v =>
    rw [h1] at h
    simp only [bind_ok_eq] at h
    simp only [asstWalkClaude] at h
    cases h2 : asstItemClaude v.2.2 (JVal.obj tf) with
    | error e => simp [h2] at h
    | ok v2 =>
      obtain ⟨t2, o2, p2⟩ := v2
      rw [h2] at h
      simp only [bind_ok_eq] at h
      cases h3 : asstWalkClaude p2 cpost with
      | error e => simp [h3] at h
      | ok v3 =>
        obtain ⟨t3, o3, p3⟩ := v3
        rw [h3] at h
        simp only [bind_ok_eq] at h
        injection h with h
        simp only [Prod.mk.injEq] at h
        rw [← h.2.2]
        rw [asstWalkClaude_preserves id cpost p2 t3 o3 p3 h3 hpost]
        exact asstItemClaude_sets id nm v.2.2 tf t2 o2 p2 h2 htype hid hne hnm

/-- After the call record, the pending table maps `id` to `nm`. -/
theorem stepClaude_call_effect (id : String) (nm : JVal) (p : PendC)
    (cpre cpost : List JVal) (tf : JObj) (ls : List String) (p' : PendC)
    (h : stepClaude p (callRecC cpre tf cpost) = .ok (ls, p'))
    (htype : isStrEq (oget tf "type" JVal.null) "tool_use" = true)
    (hid : oget tf "id" (JVal.str "") = JVal.str id)
    (hne : id ≠ "")
    (hnm : oget tf "name" (JVal.str "tool") = nm)
    (hpost : ∀ it ∈ cpost, fragSetsClaude id it = false) :
    pfind? p' (HKey.str id) = some nm := by
  simp [stepClaude, callRecC, oget, oget?, isStrEq, truthy] at h
  cases h1 : asstWalkClaude p (cpre ++ JVal.obj tf :: cpost) with
  | error e => simp [h1] at h
  | ok v =>
    obtain ⟨tps, tls, p1⟩ := v
    rw [h1] at h
    simp only [bind_ok_eq] at h
    injection h with h
    simp only [Prod.mk.injEq] at h
    rw [← h.2]
    exact asstWalkClaude_sets id nm p cpre cpost tf tps tls p1 h1 htype hid hne hnm hpost

/-- Processing a `tool_result` fragment for a bound identifier emits the
result line carrying the recorded name. -/
theorem userItemClaude_pops (id : String) (nm : JVal) (p : PendC) (rf : JObj)
    (t : List JVal) (o : List String) (p' : PendC)
    (h : userItemClaude p (JVal.obj rf) = .ok (t, o, p'))
    (htype : isStrEq (oget rf "type" JVal.null) "tool_result" = true)
    (hid : oget rf "tool_use_id" (JVal.str "") = JVal.str id)
    (hfound : pfind? p (HKey.str id) = some nm) :
    o = [formatToolResult nm (oget rf "is_error" (JVal.bool false))
      (toolResultBody (oget rf "content" (JVal.str "")))] := by
  simp only [userItemClaude] at h
  rw [if_neg (by rw [isStrEq_ne _ "tool_result" "text" htype (by decide)]; decide)] at h
  rw [if_pos htype] at h
  rw [hid] at h
  simp only [keyOf, toKey, bind_ok_eq, pure_eq_ok] at h
  simp only [ppop, hfound] at h
  injection h with h
  simp only [Prod.mk.injEq] at h
  rw [← h.2.1]

/-- The user walk over a content list containing the `tool_result` fragment
`rf` for a bound identifier emits the recorded-name result line. -/
theorem userWalkClaude_emits (id : String) (nm : JVal) (p : PendC)
    (rpre rpost : List JVal) (rf : JObj) (t : List JVal) (o : List String) (p' : PendC)
    (h : userWalkClaude p (rpre ++ JVal.obj rf :: rpost) = .ok (t, o, p'))
    (htype : isStrEq (oget rf "type" JVal.null) "tool_result" = true)
    (hid : oget rf "tool_use_id" (JVal.str "") = JVal.str id)
    (hpre : ∀ it ∈ rpre, fragPopsClaude id it = false)
    (hfound : pfind? p (HKey.str id) = some nm) :
    formatToolResult nm (oget rf "is_error" (JVal.bool false))
      (toolResultBody (oget rf "content" (JVal.str ""))) ∈ o := by
  rw [userWalkClaude_append] at h
  cases h1 : userWalkClaude p rpre with
  | error e => simp [h1] at h
  | ok v =>
    rw [h1] at h
    simp only [bind_ok_eq] at h
    simp only [userWalkClaude] at h
    cases h2 : userItemClaude v.2.2 (JVal.obj rf) with
    | error e => simp [h2] at h
    | ok v2 =>
      obtain ⟨t2, o2, p2⟩ := v2
      rw [h2] at h
      simp only [bind_ok_eq] at h
      cases h3 : userWalkClaude p2 rpost with
      | error e => simp [h3] at h
      | ok v3 =>
        obtain ⟨t3, o3, p3⟩ := v3
        rw [h3] at h
        simp only [bind_ok_eq] at h
        injection h with h
        simp only [Prod.mk.injEq] at h
        have hfound1 : pfind? v.2.2 (HKey.str id) = some nm := by
          obtain ⟨t1, o1, p1⟩ := v
          rw [userWalkClaude_preserves id rpre p t1 o1 p1 h1 hpre]
          exact hfound
        have ho2 := userItemClaude_pops id nm v.2.2 rf t2 o2 p2 h2 htype hid hfound1
        rw [← h.2.1]
        rw [ho2]
        simp

/-- The result record's step output contains the recorded-name line. -/
theorem stepClaude_result_effect (id : String) (nm : JVal) (p : PendC)
    (rpre rpost : List JVal) (rf : JObj) (ls : List String) (p' : PendC)
    (h : stepClaude p (resRecC rpre rf rpost) = .ok (ls, p'))
    (htype : isStrEq (oget rf "type" JVal.null) "tool_result" = true)
    (hid : oget rf "tool_use_id" (JVal.str "") = JVal.str id)
    (hpre : ∀ it ∈ rpre, fragPopsClaude id it = false)
    (hfound : pfind? p (HKey.str id) = some nm) :
    formatToolResult nm (oget rf "is_error" (JVal.bool false))
      (toolResultBody (oget rf "content" (JVal.str ""))) ∈ ls := by
  simp [stepClaude, resRecC, oget, oget?, isStrEq, truthy] at h
  cases h1 : userWalkClaude p (rpre ++ JVal.obj rf :: rpost) with
  | error e => simp [h1] at h
  | ok v =>
    obtain ⟨tps, out1, p1⟩ := v
    rw [h1] at h
    simp only [bind_ok_eq] at h
    cases h2 : userTextClaude tps with
    | error e => simp [h2] at h
    | ok out2 =>
      rw [h2] at h
      simp only [bind_ok_eq] at h
      injection h with h
      simp only [Prod.mk.injEq] at h
      rw [← h.1]
      exact List.mem_append_left out2
        (userWalkClaude_emits id nm p rpre rpost rf tps out1 p1 h1 htype hid hpre hfound)

/-- Claude-side correlation: in a stream containing a call record for
`id` and a later result record for `id`, with no intervening record
touching `id`, the output contains the result line rendered with the
recorded name. -/
theorem claude_correlation (id : String) (nm : JVal)
    (pre mids post : List JObj) (cpre cpost rpre rpost : List JVal)
    (tf rf : JObj) (out : List String)
    (h : processClaude (pre ++ callRecC cpre tf cpost :: mids ++
      resRecC rpre rf rpost :: post) = .ok out)
    (htype : isStrEq (oget tf "type" JVal.null) "tool_use" = true)
    (hid : oget tf "id" (JVal.str "") = JVal.str id)
    (hne : id ≠ "")
    (hnm : oget tf "name" (JVal.str "tool") = nm)
    (hcpost : ∀ it ∈ cpost, fragSetsClaude id it = false)
    (hmids : ∀ r ∈ mids, recTouchesClaude id r = false)
    (hrtype : isStrEq (oget rf "type" JVal.null) "tool_result" = true)
    (hrid : oget rf "tool_use_id" (JVal.str "") = JVal.str id)
    (hrpre : ∀ it ∈ rpre, fragPopsClaude id it = false) :
    formatToolResult nm (oget rf "is_error" (JVal.bool false))
      (toolResultBody (oget rf "content" (JVal.str ""))) ∈ out := by
  simp only [processClaude] at h
  cases hr : runClaude [] (pre ++ callRecC cpre tf cpost :: mids ++
      resRecC rpre rf rpost :: post) with
  | error e => rw [hr] at h; simp [Except.map] at h
  | ok v =>
    rw [hr] at h
    simp only [Except.map] at h
    injection h with h
    rw [runClaude_append] at hr
    cases hA : runClaude [] (pre ++ callRecC cpre tf cpost :: mids) with
    | error e => simp [hA] at hr
    | ok a =>
      rw [hA] at hr
      simp only [bind_ok_eq] at hr
      rw [runClaude_append] at hA
      cases h1 : runClaude [] pre with
      | error e => simp [h1] at hA
      | ok a1 =>
        rw [h1] at hA
        simp only [bind_ok_eq] at hA
        simp only [runClaude] at hA
        cases h2 : stepClaude a1.2 (callRecC cpre tf cpost) with
        | error e => simp [h2] at hA
        | ok c2 =>
          obtain ⟨oc, p2⟩ := c2
          rw [h2] at hA
          simp only [bind_ok_eq] at hA
          have hp2 : pfind? p2 (HKey.str id) = some nm :=
            stepClaude_call_effect id nm a1.2 cpre cpost tf oc p2 h2 htype hid hne hnm hcpost
          cases h3 : runClaude p2 mids with
          | error e => simp [h3] at hA
          | ok m3 =>
            obtain ⟨om, p3⟩ := m3
            rw [h3] at hA
            simp only [bind_ok_eq] at hA
            injection hA with hA
            have ha2 : a.2 = p3 := by rw [← hA]
            have hp3 : pfind? p3 (HKey.str id) = some nm := by
              rw [runClaude_preserves id mids p2 om p3 h3 hmids]
              exact hp2
            rw [ha2] at hr
            simp only [runClaude] at hr
            cases h4 : stepClaude p3 (resRecC rpre rf rpost) with
            | error e => simp [h4] at hr
            | ok r4 =>
              obtain ⟨orr, p4⟩ := r4
              rw [h4] at hr
              simp only [bind_ok_eq] at hr
              have hline := stepClaude_result_effect id nm p3 rpre rpost rf orr p4 h4
                hrtype hrid hrpre hp3
              cases h5 : runClaude p4 post with
              | error e => simp [h5] at hr
              | ok q5 =>
                rw [h5] at hr
                simp only [bind_ok_eq] at hr
                injection hr with hr
                rw [← h, ← hr]
                exact List.mem_append_right a.1
                  (List.mem_append_left q5.1 hline)

theorem runPi_append (p : PendP) (xs ys : List JObj) :
    runPi p (xs ++ ys) = (do
      let a ← runPi p xs
      let b ← runPi a.2 ys
      Except.ok (a.1 ++ b.1, b.2)) := by
  induction xs generalizing p with
  | nil =>
    cases h : runPi p ys with
    | error e => simp [runPi, h]
    | ok v => simp [runPi, h]
  | cons r rs ih =>
    simp only [List.cons_append, runPi]
    cases h : stepPi p r with
    | error e => simp [h]
    | ok v =>
      simp only [bind_ok_eq, List.append_eq]
      rw [ih v.2]
      cases h2 : runPi v.2 rs with
      | error e => simp [h2]
      | ok v2 =>
        simp only [bind_ok_eq]
        cases h3 : runPi v2.2 ys with
        | error e => simp [h3]
        | ok v3 => simp [h3, List.append_assoc]

theorem asstWalkPi_append (p : PendP) (xs ys : List JVal) :
    asstWalkPi p (xs ++ ys) = (do
      let a ← asstWalkPi p xs
      let b ← asstWalkPi a.2.2 ys
      Except.ok (a.1 ++ b.1, a.2.1 ++ b.2.1, b.2.2)) := by
  induction xs generalizing p with
  | nil =>
    cases h : asstWalkPi p ys with
    | error e => simp [asstWalkPi, h]
    | ok v => simp [asstWalkPi, h]
  | cons item rest ih =>
    simp only [List.cons_append, asstWalkPi]
    cases h : asstItemPi p item with
    | error e => simp [h]
    | ok v =>
      simp only [bind_ok_eq, List.append_eq]
      rw [ih v.2.2]
      cases h2 : asstWalkPi v.2.2 rest with
      | error e => simp [h2]
      | ok v2 =>
        simp only [bind_ok_eq]
        cases h3 : asstWalkPi v2.2.2 ys with
        | error e => simp [h3]
        | ok v3 => simp [h3, List.append_assoc]

/-- A pi assistant-content fragment that is not a `toolCall` for `id`
leaves the binding of `id` unchanged. -/
theorem asstItemPi_preserves (id : String) (p : PendP) (item : JVal)
    (tps tls : List String) (p' : PendP)
    (h : asstItemPi p item = .ok (tps, tls, p'))
    (hun : fragSetsPi id item = false) :
    pfind? p' (HKey.str id) = pfind? p (HKey.str id) := by
  cases item with
  | obj f =>
    simp only [asstItemPi] at h
    by_cases h1 : isStrEq (oget f "type" JVal.null) "text" = true
    · rw [if_pos h1] at h
      split at h <;>
        first
          | (split at h <;> (injection h with h; simp only [Prod.mk.injEq] at h; rw [← h.2.2]))
          | (injection h with h; simp only [Prod.mk.injEq] at h; rw [← h.2.2])
    · rw [if_neg h1] at h
      by_cases h3 : isStrEq (oget f "type" JVal.null) "toolCall" = true
      · rw [if_pos h3] at h
        have hne : isStrEq (oget f "id" (JVal.str "")) id = false := by
          simp only [fragSetsPi, h3, Bool.true_and] at hun
          exact hun
        cases hf : formatToolCallPi (oget f "name" (JVal.str "tool"))
            (match oget f "arguments" (JVal.obj []) with
              | JVal.obj t => JVal.obj t
              | JVal.str s =>
                (match jsonDecode s with
                  | some v => v
                  | none => JVal.obj [])
              | _ => JVal.obj []) with
        | error e => simp [hf] at h
        | ok fmt =>
          rw [hf] at h
          simp only [bind_ok_eq] at h
          by_cases h4 : truthy (oget f "id" (JVal.str "")) = true
          · rw [if_pos h4] at h
            cases hk : keyOf (oget f "id" (JVal.str "")) with
            | error e => simp [hk] at h
            | ok k =>
              rw [hk] at h
              simp only [bind_ok_eq, pure_eq_ok] at h
              injection h with h
              simp only [Prod.mk.injEq] at h
              rw [← h.2.2]
              exact pfind?_pset_ne p k (HKey.str id) _
                (Ne.symm (keyOf_ne_str _ id k hk hne))
          · rw [if_neg h4] at h
            simp only [pure_eq_ok, bind_ok_eq] at h
            injection h with h
            simp only [Prod.mk.injEq] at h
            rw [← h.2.2]
      · rw [if_neg h3] at h
        injection h with h
        simp only [Prod.mk.injEq] at h
        rw [← h.2.2]
  | null =>
    simp only [asstItemPi] at h
    injection h with h
    simp only [Prod.mk.injEq] at h
    rw [← h.2.2]
  | bool b =>
    simp only [asstItemPi] at h
    injection h with h
    simp only [Prod.mk.injEq] at h
    rw [← h.2.2]
  | num n =>
    simp only [asstItemPi] at h
    injection h with h
    simp only [Prod.mk.injEq] at h
    rw [← h.2.2]
  | str s =>
    simp only [asstItemPi] at h
    injection h with h
    simp only [Prod.mk.injEq] at h
    rw [← h.2.2]
  | arr l =>
    simp only [asstItemPi] at h
    injection h with h
    simp only [Prod.mk.injEq] at h
    rw [← h.2.2]

theorem asstWalkPi_preserves (id : String) (items : List JVal) (p : PendP)
    (tps tls : List String) (p' : PendP)
    (h : asstWalkPi p items = .ok (tps, tls, p'))
    (hun : ∀ it ∈ items, fragSetsPi id it = false) :
    pfind? p' (HKey.str id) = pfind? p (HKey.str id) := by
  induction items generalizing p tps tls p' with
  | nil =>
    simp only [asstWalkPi] at h
    injection h with h
    simp only [Prod.mk.injEq] at h
    rw [← h.2.2]
  | cons item rest ih =>
    simp only [asstWalkPi] at h
    cases h1 : asstItemPi p item with
    | error e => simp [h1] at h
    | ok v =>
      obtain ⟨t1, o1, p1⟩ := v
      rw [h1] at h
      simp only [bind_ok_eq] at h
      cases h2 : asstWalkPi p1 rest with
      | error e => simp [h2] at h
      | ok v2 =>
        obtain ⟨t2, o2, p2⟩ := v2
        rw [h2] at h
        simp only [bind_ok_eq] at h
        injection h with h
        simp only [Prod.mk.injEq] at h
        rw [← h.2.2]
        rw [ih p1 t2 o2 p2 h2 (fun it hit => hun it (List.mem_cons_of_mem item hit))]
        exact asstItemPi_preserves id p item t1 o1 p1 h1 (hun item (by simp))

/-- A pi record unrelated to `id` leaves `id`'s pending binding unchanged. -/
theorem stepPi_preserves (id : String) (p : PendP) (rec : JObj)
    (ls : List String) (p' : PendP)
    (h : stepPi p rec = .ok (ls, p'))
    (hun : recTouchesPi id rec = false) :
    pfind? p' (HKey.str id) = pfind? p (HKey.str id) := by
  simp only [stepPi] at h
  by_cases hb1 : (!isStrEq (oget rec "type" JVal.null) "message") = true
  · rw [if_pos hb1] at h
    injection h with h
    simp only [Prod.mk.injEq] at h
    rw [← h.2]
  · rw [if_neg hb1] at h
    split at h
    · rename_i m heq
      simp only [recTouchesPi, heq] at hun
      have hun2 := Bool.or_eq_false_iff.mp hun
      by_cases hr1 : isStrEq (oget m "role" JVal.null) "user" = true
      · rw [if_pos hr1] at h
        split at h <;> (injection h with h; simp only [Prod.mk.injEq] at h; rw [← h.2])
      · rw [if_neg hr1] at h
        by_cases hr2 : isStrEq (oget m "role" JVal.null) "assistant" = true
        · rw [if_pos hr2] at h
          split at h
          · rename_i items heq2
            have hun1 : ∀ it ∈ items, fragSetsPi id it = false := by
              have := hun2.1
              rw [heq2] at this
              simp only [List.any_eq_false] at this
              exact fun it hit => Bool.eq_false_iff.mpr (this it hit)
            cases h1 : asstWalkPi p items with
            | error e => simp [h1] at h
            | ok v =>
              obtain ⟨tps, tls, p1⟩ := v
              rw [h1] at h
              simp only [bind_ok_eq] at h
              injection h with h
              simp only [Prod.mk.injEq] at h
              rw [← h.2]
              exact asstWalkPi_preserves id items p tps tls p1 h1 hun1
          · injection h with h
            simp only [Prod.mk.injEq] at h
            rw [← h.2]
        · rw [if_neg hr2] at h
          by_cases hr3 : isStrEq (oget m "role" JVal.null) "toolResult" = true
          · rw [if_pos hr3] at h
            have hne2 : isStrEq (pyOr (oget m "toolCallId" JVal.null)
                (pyOr (oget m "tool_call_id" JVal.null) (JVal.str ""))) id = false := by
              have := hun2.2
              simp only [toolIdPi] at this
              exact this
            cases hk : keyOf (pyOr (oget m "toolCallId" JVal.null)
                (pyOr (oget m "tool_call_id" JVal.null) (JVal.str ""))) with
            | error e => simp [hk] at h
            | ok k =>
              rw [hk] at h
              simp only [bind_ok_eq] at h
              cases hfind : pfind? p k with
              | some v =>
                obtain ⟨n, fm⟩ := v
                rw [hfind] at h
                injection h with h
                simp only [Prod.mk.injEq] at h
                rw [← h.2]
                exact pfind?_premove_ne p k (HKey.str id)
                  (Ne.symm (keyOf_ne_str _ id k hk hne2))
              | none =>
                rw [hfind] at h
                injection h with h
                simp only [Prod.mk.injEq] at h
                rw [← h.2]
          · rw [if_neg hr3] at h
            injection h with h
            simp only [Prod.mk.injEq] at h
            rw [← h.2]
    · injection h with h
      simp only [Prod.mk.injEq] at h
      rw [← h.2]

theorem runPi_preserves (id : String) (mids : List JObj) (p : PendP)
    (out : List String) (p' : PendP)
    (h : runPi p mids = .ok (out, p'))
    (hun : ∀ r ∈ mids, recTouchesPi id r = false) :
    pfind? p' (HKey.str id) = pfind? p (HKey.str id) := by
  induction mids generalizing p out p' with
  | nil =>
    simp only [runPi] at h
    injection h with h
    simp only [Prod.mk.injEq] at h
    rw [← h.2]
  | cons r rs ih =>
    simp only [runPi] at h
    cases h1 : stepPi p r with
    | error e => simp [h1] at h
    | ok v =>
      obtain ⟨o1, p1⟩ := v
      rw [h1] at h
      simp only [bind_ok_eq] at h
      cases h2 : runPi p1 rs with
      | error e => simp [h2] at h
      | ok v2 =>
        obtain ⟨o2, p2⟩ := v2
        rw [h2] at h
        simp only [bind_ok_eq] at h
        injection h with h
        simp only [Prod.mk.injEq] at h
        rw [← h.2]
        rw [ih p1 o2 p2 h2 (fun r hr => hun r (List.mem_cons_of_mem _ hr))]
        exact stepPi_preserves id p r o1 p1 h1 (hun r (by simp))

/-- Processing a pi `toolCall` fragment carrying a truthy string identifier
ends with `id` bound to the fragment's recorded name (paired with the
rendered call line). -/
theorem asstItemPi_sets (id : String) (nm : JVal) (p : PendP) (tf : JObj)
    (t o : List String) (p' : PendP)
    (h : asstItemPi p (JVal.obj tf) = .ok (t, o, p'))
    (htype : isStrEq (oget tf "type" JVal.null) "toolCall" = true)
    (hid : oget tf "id" (JVal.str "") = JVal.str id)
    (hne : id ≠ "")
    (hnm : oget tf "name" (JVal.str "tool") = nm) :
    ∃ fmt, pfind? p' (HKey.str id) = some (nm, fmt) := by
  simp only [asstItemPi] at h
  rw [if_neg (by rw [isStrEq_ne _ "toolCall" "text" htype (by decide)]; decide)] at h
  rw [if_pos htype] at h
  rw [hid, hnm] at h
  cases hf : formatToolCallPi nm
      (match oget tf "arguments" (JVal.obj []) with
        | JVal.obj t => JVal.obj t
        | JVal.str s =>
          (match jsonDecode s with
            | some v => v
            | none => JVal.obj [])
        | _ => JVal.obj []) with
  | error e => simp [hf] at h
  | ok fmt =>
    rw [hf] at h
    simp only [bind_ok_eq] at h
    rw [if_pos (show truthy (JVal.str id) = true by simp [truthy, hne])] at h
    simp only [keyOf, toKey, bind_ok_eq, pure_eq_ok] at h
    injection h with h
    simp only [Prod.mk.injEq] at h
    refine ⟨fmt, ?_⟩
    rw [← h.2.2]
    exact pfind?_pset_eq p (HKey.str id) (nm, fmt)

/-- After the pi assistant walk over a content list whose fragment `tf`
records `(id, nm)` and whose later fragments do not rebind `id`, the
pending table maps `id` to `nm` (with its rendered line). -/
theorem asstWalkPi_sets (id : String) (nm : JVal) (p : PendP)
    (cpre cpost : List JVal) (tf : JObj) (t o : List String) (p' : PendP)
    (h : asstWalkPi p (cpre ++ JVal.obj tf :: cpost) = .ok (t, o, p'))
    (htype : isStrEq (oget tf "type" JVal.null) "toolCall" = true)
    (hid : oget tf "id" (JVal.str "") = JVal.str id)
    (hne : id ≠ "")
    (hnm : oget tf "name" (JVal.str "tool") = nm)
    (hpost : ∀ it ∈ cpost, fragSetsPi id it = false) :
    ∃ fmt, pfind? p' (HKey.str id) = some (nm, fmt) := by
  rw [asstWalkPi_append] at h
  cases h1 : asstWalkPi p cpre with
  | error e => simp [h1] at h
  | ok v =>
    rw [h1] at h
    simp only [bind_ok_eq] at h
    simp only [asstWalkPi] at h
    cases h2 : asstItemPi v.2.2 (JVal.obj tf) with
    | error e => simp [h2] at h
    | ok v2 =>
      obtain ⟨t2, o2, p2⟩ := v2
      rw [h2] at h
      simp only [bind_ok_eq] at h
      cases h3 : asstWalkPi p2 cpost with
      | error e => simp [h3] at h
      | ok v3 =>
        obtain ⟨t3, o3, p3⟩ := v3
        rw [h3] at h
        simp only [bind_ok_eq] at h
        injection h with h
        simp only [Prod.mk.injEq] at h
        obtain ⟨fmt, hfmt⟩ := asstItemPi_sets id nm v.2.2 tf t2 o2 p2 h2 htype hid hne hnm
        refine ⟨fmt, ?_⟩
        rw [← h.2.2]
        rw [asstWalkPi_preserves id cpost p2 t3 o3 p3 h3 hpost]
        exact hfmt

/-- After the pi call record, the pending table maps `id` to `nm`. -/
theorem stepPi_call_effect (id : String) (nm : JVal) (p : PendP)
    (cpre cpost : List JVal) (tf : JObj) (ls : List String) (p' : PendP)
    (h : stepPi p (callRecP cpre tf cpost) = .ok (ls, p'))
    (htype : isStrEq (oget tf "type" JVal.null) "toolCall" = true)
    (hid : oget tf "id" (JVal.str "") = JVal.str id)
    (hne : id ≠ "")
    (hnm : oget tf "name" (JVal.str "tool") = nm)
    (hpost : ∀ it ∈ cpost, fragSetsPi id it = false) :
    ∃ fmt, pfind? p' (HKey.str id) = some (nm, fmt) := by
  simp [stepPi, callRecP, oget, oget?, isStrEq] at h
  cases h1 : asstWalkPi p (cpre ++ JVal.obj tf :: cpost) with
  | error e => simp [h1] at h
  | ok v =>
    obtain ⟨tps, tls, p1⟩ := v
    rw [h1] at h
    simp only [bind_ok_eq] at h
    injection h with h
    simp only [Prod.mk.injEq] at h
    obtain ⟨fmt, hfmt⟩ := asstWalkPi_sets id nm p cpre cpost tf tps tls p1 h1
      htype hid hne hnm hpost
    refine ⟨fmt, ?_⟩
    rw [← h.2]
    exact hfmt

theorem isStrEq_true_eq (v : JVal) (a : String) (h : isStrEq v a = true) :
    v = JVal.str a := by
  cases v with
  | str t => simp only [isStrEq, decide_eq_true_eq] at h; rw [h]
  | null => simp [isStrEq] at h
  | bool b => simp [isStrEq] at h
  | num n => simp [isStrEq] at h
  | arr l => simp [isStrEq] at h
  | obj f => simp [isStrEq] at h

/-- A pi `toolResult` message whose identifier is bound in the pending
table emits exactly the result line rendered with the recorded name. -/
theorem stepPi_result_effect (id : String) (nm : JVal) (fmt : String) (p : PendP)
    (m : JObj) (ls : List String) (p' : PendP)
    (h : stepPi p (msgRecP m) = .ok (ls, p'))
    (hrole : isStrEq (oget m "role" JVal.null) "toolResult" = true)
    (hmid : toolIdPi m = JVal.str id)
    (hfound : pfind? p (HKey.str id) = some (nm, fmt)) :
    ls = [formatToolResult nm
      (JVal.bool (truthy (pyOr (oget m "isError" JVal.null) (oget m "is_error" JVal.null))))
      (extractText (oget m "content" JVal.null))] := by
  have hv : oget m "role" JVal.null = JVal.str "toolResult" := isStrEq_true_eq _ _ hrole
  simp only [oget] at hv
  have hmid2 : pyOr (oget m "toolCallId" JVal.null)
      (pyOr (oget m "tool_call_id" JVal.null) (JVal.str "")) = JVal.str id := by
    simpa only [toolIdPi] using hmid
  simp only [oget] at hmid2
  simp [stepPi, msgRecP, oget, oget?, isStrEq] at h
  rw [hv] at h
  rw [if_neg (by decide)] at h
  rw [if_neg (by decide)] at h
  rw [if_pos (by decide)] at h
  rw [hmid2] at h
  simp only [keyOf, toKey, bind_ok_eq, pure_eq_ok] at h
  rw [hfound] at h
  injection h with h
  simp only [Prod.mk.injEq] at h
  exact h.1.symm

/-- Pi-side correlation: in a stream containing a call record for `id`
and a later `toolResult` record resolving `id`, with no intervening
record touching `id`, the output contains the result line rendered with
the recorded name. -/
theorem pi_correlation (id : String) (nm : JVal)
    (pre mids post : List JObj) (cpre cpost : List JVal)
    (tf m : JObj) (out : List String)
    (h : processPi (pre ++ callRecP cpre tf cpost :: mids ++ msgRecP m :: post) = .ok out)
    (htype : isStrEq (oget tf "type" JVal.null) "toolCall" = true)
    (hid : oget tf "id" (JVal.str "") = JVal.str id)
    (hne : id ≠ "")
    (hnm : oget tf "name" (JVal.str "tool") = nm)
    (hcpost : ∀ it ∈ cpost, fragSetsPi id it = false)
    (hmids : ∀ r ∈ mids, recTouchesPi id r = false)
    (hrole : isStrEq (oget m "role" JVal.null) "toolResult" = true)
    (hmid : toolIdPi m = JVal.str id) :
    formatToolResult nm
      (JVal.bool (truthy (pyOr (oget m "isError" JVal.null) (oget m "is_error" JVal.null))))
      (extractText (oget m "content" JVal.null)) ∈ out := by
  simp only [processPi] at h
  cases hr : runPi [] (pre ++ callRecP cpre tf cpost :: mids ++ msgRecP m :: post) with
  | error e => rw [hr] at h; simp [Except.map] at h
  | ok v =>
    rw [hr] at h
    simp only [Except.map] at h
    injection h with h
    rw [runPi_append] at hr
    cases hA : runPi [] (pre ++ callRecP cpre tf cpost :: mids) with
    | error e => simp [hA] at hr
    | ok a =>
      rw [hA] at hr
      simp only [bind_ok_eq] at hr
      rw [runPi_append] at hA
      cases h1 : runPi [] pre with
      | error e => simp [h1] at hA
      | ok a1 =>
        rw [h1] at hA
        simp only [bind_ok_eq] at hA
        simp only [runPi] at hA
        cases h2 : stepPi a1.2 (callRecP cpre tf cpost) with
        | error e => simp [h2] at hA
        | ok c2 =>
          obtain ⟨oc, p2⟩ := c2
          rw [h2] at hA
          simp only [bind_ok_eq] at hA
          obtain ⟨fmt, hp2⟩ :=
            stepPi_call_effect id nm a1.2 cpre cpost tf oc p2 h2 htype hid hne hnm hcpost
          cases h3 : runPi p2 mids with
          | error e => simp [h3] at hA
          | ok m3 =>
            obtain ⟨om, p3⟩ := m3
            rw [h3] at hA
            simp only [bind_ok_eq] at hA
            injection hA with hA
            have ha2 : a.2 = p3 := by rw [← hA]
            have hp3 : pfind? p3 (HKey.str id) = some (nm, fmt) := by
              rw [runPi_preserves id mids p2 om p3 h3 hmids]
              exact hp2
            rw [ha2] at hr
            simp only [runPi] at hr
            cases h4 : stepPi p3 (msgRecP m) with
            | error e => simp [h4] at hr
            | ok r4 =>
              obtain ⟨orr, p4⟩ := r4
              rw [h4] at hr
              simp only [bind_ok_eq] at hr
              have horr := stepPi_result_effect id nm fmt p3 m orr p4 h4 hrole hmid hp3
              have hline : formatToolResult nm
                  (JVal.bool (truthy (pyOr (oget m "isError" JVal.null)
                    (oget m "is_error" JVal.null))))
                  (extractText (oget m "content" JVal.null)) ∈ orr := by
                rw [horr]; simp
              cases h5 : runPi p4 post with
              | error e => simp [h5] at hr
              | ok q5 =>
                rw [h5] at hr
                simp only [bind_ok_eq] at hr
                injection hr with hr
                rw [← h, ← hr]
                exact List.mem_append_right a.1
                  (List.mem_append_left q5.1 hline)

/-- C1: correlation correctness. For every record stream in which a
tool-call record carrying correlation identifier `id` and tool name `nm`
is followed, after arbitrarily many unrelated records, by a result record
referencing `id`, the emitted result line shows the name recorded at call
time, not the generic placeholder — in the claude extractor (left
conjunct) and in the pi extractor (right conjunct). -/
theorem c1_correlation :
    (∀ (id : String) (nm : JVal) (pre mids post : List JObj)
        (cpre cpost rpre rpost : List JVal) (tf rf : JObj) (out : List String),
      processClaude (pre ++ callRecC cpre tf cpost :: mids ++
          resRecC rpre rf rpost :: post) = .ok out →
      isStrEq (oget tf "type" JVal.null) "tool_use" = true →
      oget tf "id" (JVal.str "") = JVal.str id →
      id ≠ "" →
      oget tf "name" (JVal.str "tool") = nm →
      (∀ it ∈ cpost, fragSetsClaude id it = false) →
      (∀ r ∈ mids, recTouchesClaude id r = false) →
      isStrEq (oget rf "type" JVal.null) "tool_result" = true →
      oget rf "tool_use_id" (JVal.str "") = JVal.str id →
      (∀ it ∈ rpre, fragPopsClaude id it = false) →
      formatToolResult nm (oget rf "is_error" (JVal.bool false))
        (toolResultBody (oget rf "content" (JVal.str ""))) ∈ out) ∧
    (∀ (id : String) (nm : JVal) (pre mids post : List JObj)
        (cpre cpost : List JVal) (tf m : JObj) (out : List String),
      processPi (pre ++ callRecP cpre tf cpost :: mids ++ msgRecP m :: post) = .ok out →
      isStrEq (oget tf "type" JVal.null) "toolCall" = true →
      oget tf "id" (JVal.str "") = JVal.str id →
      id ≠ "" →
      oget tf "name" (JVal.str "tool") = nm →
      (∀ it ∈ cpost, fragSetsPi id it = false) →
      (∀ r ∈ mids, recTouchesPi id r = false) →
      isStrEq (oget m "role" JVal.null) "toolResult" = true →
      toolIdPi m = JVal.str id →
      formatToolResult nm
        (JVal.bool (truthy (pyOr (oget m "isError" JVal.null) (oget m "is_error" JVal.null))))
        (extractText (oget m "content" JVal.null)) ∈ out) :=
  ⟨fun id nm pre mids post cpre cpost rpre rpost tf rf out
      h htype hid hne hnm hcpost hmids hrtype hrid hrpre =>
    claude_correlation id nm pre mids post cpre cpost rpre rpost tf rf out
      h htype hid hne hnm hcpost hmids hrtype hrid hrpre,
   fun id nm pre mids post cpre cpost tf m out
      h htype hid hne hnm hcpost hmids hrole hmid =>
    pi_correlation id nm pre mids post cpre cpost tf m out
      h htype hid hne hnm hcpost hmids hrole hmid⟩

/-- Witness for C1 at a concrete two-record stream for each extractor. -/
theorem c1_witness :
    formatToolResult (JVal.str "Bash") (JVal.bool false) (toolResultBody (JVal.str "ok")) ∈
      (["A:\n  [Bash] `ls`", "TOOL [Bash]: ✓ ok"] : List String) ∧
    formatToolResult (JVal.str "bash")
        (JVal.bool (truthy (pyOr (JVal.bool false) JVal.null)))
        (extractText (JVal.str "done")) ∈
      (["A:\n  [bash] `ls`", "TOOL [bash]: ✓ done"] : List String) :=
  ⟨c1_correlation.1 "t1" (JVal.str "Bash") [] [] [] [] [] [] []
      [("type", JVal.str "tool_use"), ("id", JVal.str "t1"),
        ("name", JVal.str "Bash"), ("input", JVal.obj [("command", JVal.str "ls")])]
      [("type", JVal.str "tool_result"), ("tool_use_id", JVal.str "t1"),
        ("is_error", JVal.bool false), ("content", JVal.str "ok")]
      ["A:\n  [Bash] `ls`", "TOOL [Bash]: ✓ ok"]
      rfl rfl rfl (by decide) rfl (by simp) (by simp) rfl rfl (by simp),
   c1_correlation.2 "p1" (JVal.str "bash") [] [] [] [] []
      [("type", JVal.str "toolCall"), ("id", JVal.str "p1"),
        ("name", JVal.str "bash"), ("arguments", JVal.obj [("command", JVal.str "ls")])]
      [("role", JVal.str "toolResult"), ("toolCallId", JVal.str "p1"),
        ("isError", JVal.bool false), ("content", JVal.str "done")]
      ["A:\n  [bash] `ls`", "TOOL [bash]: ✓ done"]
      rfl rfl rfl (by decide) rfl (by simp) (by simp) rfl rfl⟩

end SessionTools